import Mathlib

/-!
Shallow embedding of the facematch data-loading utilities
(`utils/datasets.py` and `utils/saveload.py`) together with proofs of the
specified properties.

Modelling conventions:
* Python strings are Lean `String`s; string comparison is code-point
  lexicographic, matching Python.
* The process-global `random` generator is modelled as a deterministic
  stream `f : Nat -> Nat` together with a cursor `idx`; each primitive draw
  reads `f idx` and advances the cursor.  `random.seed s` replaces the
  stream by a stream derived from `s` and resets the cursor, and
  `random.getstate` / `random.setstate` save and restore the pair.
* The `while` loops of `get_image_pairs` are given explicit fuel (a bound
  on the number of loop iterations); running out of fuel is reported as a
  distinguished error, so an execution of the Python code corresponds to a
  run with sufficiently large fuel.
* Filesystem contents are inputs: a dataset directory is a flag `is_dir`
  plus the `(directory, filename)` entries produced by `os.walk`; a weights
  directory is the list of its regular file names.
* Exceptions are modelled with `Except`.
* Pixel contents are modelled by two oracles: `readImg : String -> List
  (List Nat)` for `cv2.imread(..., as_grey=True)` (the decoded grayscale
  pixel grid of a file) and `interp : List (List (List Nat)) -> Nat -> Nat
  -> Nat` for the interpolation kernel of `cv2.resize` (the resampled
  value at a given output row and column).  `cv2.resize` itself is
  modelled faithfully to its `dsize = (width, height)` argument
  convention: `cv2_resize interp img (a, b)` produces a grid of `b` rows
  of `a` columns, so the source's `cv2.resize(img, (height, width))` call
  yields a `width x height` grid.  A numpy array assignment `X[i] = block`
  into a preallocated `(N, 2, height, width, 1)` array of
  `image_pairs_to_xy` is modelled as an exact shape check on the block
  (failure is numpy's `ValueError`), and the `np.uint8` dtype as a
  `% 256` cast on the stored values.
-/

/-- Lexicographic comparison of character lists by code point,
modelling Python string `<=`. -/
def charListLe : List Char → List Char → Bool
  | [], _ => true
  | _ :: _, [] => false
  | a :: as, b :: bs =>
    if a.val < b.val then true
    else if b.val < a.val then false
    else charListLe as bs

/-- Python string `<=` (code-point lexicographic). -/
def strLe (a b : String) : Bool :=
  charListLe a.data b.data

/-- Model of `re.sub(r"[^0-9]", "", s)`: keep only decimal digits. -/
def digitsOnly (s : String) : String :=
  ⟨s.data.filter Char.isDigit⟩

/-- Model of Python `int(s)` on a candidate digit string: fails on the
empty string or on any non-digit character, otherwise parses decimal. -/
def pyInt (s : String) : Option Nat :=
  if s.data = [] then none
  else if s.data.all Char.isDigit then
    some (s.data.foldl (fun a c => a * 10 + (c.toNat - 48)) 0)
  else none

/-- Model of `os.path.join directory name` for the relevant cases. -/
def pyJoin (directory name : String) : String :=
  if directory = "" then name
  else if directory.data.getLast? = some '/' then directory ++ name
  else directory ++ "/" ++ name

/-- Model of `os.path.basename`: the suffix after the last slash. -/
def basenameStr (s : String) : String :=
  ⟨((s.data.reverse.takeWhile (fun c => c ≠ '/')).reverse)⟩

/-- Index of the last occurrence of `c` in `cs` (`str.rfind`),
`none` when absent. -/
def rfindIdx (cs : List Char) (c : Char) : Option Nat :=
  ((cs.enum.filter (fun p => p.2 = c)).map (fun p => p.1)).getLast?

/-- Model of `filepath_to_person_name` (datasets.py): the slice
`filepath[last_slash+1 : filepath.rfind "_"]`, where a missing `/` acts
as index `-1` and a missing `_` as the Python negative index `-1`
(which drops the final character). -/
def filepath_to_person_name (filepath : String) : String :=
  let cs := filepath.data
  let a : Nat := match rfindIdx cs '/' with
    | some i => i + 1
    | none => 0
  let b : Nat := match rfindIdx cs '_' with
    | some j => j
    | none => cs.length - 1
  ⟨(cs.take b).drop a⟩

/-- Model of `filepath_to_number` (datasets.py):
`int(re.sub(r"[^0-9]", "", basename))`; `none` models the `ValueError`
raised by `int` on an empty string. -/
def filepath_to_number (filepath : String) : Option Nat :=
  pyInt (digitsOnly (basenameStr filepath))

/-- Model of the `ImageFile` object: one on-disk image of the dataset. -/
structure ImageFile where
  filepath : String
  filename : String
  person : String
  number : Nat
  deriving DecidableEq, Repr

/-- Model of `ImageFile.__init__`: derives `filepath`, `person` and
`number` from the directory and filename; `none` models the `ValueError`
escaping the constructor when the basename holds no digit. -/
def mkImageFile (directory name : String) : Option ImageFile :=
  let filepath := pyJoin directory name
  match filepath_to_number filepath with
  | none => none
  | some num =>
    some { filepath := filepath, filename := name,
           person := filepath_to_person_name filepath, number := num }

/-- Model of the `ImagePair` object. -/
structure ImagePair where
  image1 : ImageFile
  image2 : ImageFile
  same_person : Bool
  same_image : Bool
  deriving DecidableEq, Repr

/-- Model of `ImagePair.__init__`: both flags are computed from the two
records at construction. -/
def mkImagePair (image1 image2 : ImageFile) : ImagePair :=
  { image1 := image1, image2 := image2,
    same_person := image1.person == image2.person,
    same_image := image1.filepath == image2.filepath }

/-- Model of `ImagePair.get_key`: the dedup key, a `"$$$"`-join of the two
filepaths, sorted when `ignore_order` is set. -/
def ImagePair.get_key (p : ImagePair) (ignore_order : Bool) : String :=
  if ignore_order then
    if strLe p.image1.filepath p.image2.filepath then
      p.image1.filepath ++ "$$$" ++ p.image2.filepath
    else
      p.image2.filepath ++ "$$$" ++ p.image1.filepath
  else
    p.image1.filepath ++ "$$$" ++ p.image2.filepath

/-- The file extensions accepted by the enumeration regex. -/
def lfwExtensions : List (List Char) :=
  ["pgm".data, "ppm".data, "jpg".data, "jpeg".data, "png".data,
   "bmp".data, "tiff".data]

/-- Model of `re.match(r"^.*_[0-9]+\.(pgm|ppm|jpg|jpeg|png|bmp|tiff)$", name)`:
the name must end in an accepted extension preceded by a dot, preceded by a
nonempty run of digits, preceded by an underscore. -/
def matchesLfw (name : String) : Bool :=
  let cs := name.data
  match rfindIdx cs '.' with
  | none => false
  | some i =>
    let ext := cs.drop (i + 1)
    let pre := cs.take i
    let ds := pre.reverse.takeWhile Char.isDigit
    lfwExtensions.contains ext && !ds.isEmpty &&
      ((pre.reverse.drop ds.length).head? == some '_')

/-- Stable insertion of an image into a filename-sorted list (goes after
all images whose filename compares `<=`). -/
def insertByFilename (x : ImageFile) : List ImageFile → List ImageFile
  | [] => [x]
  | y :: ys =>
    if strLe y.filename x.filename then y :: insertByFilename x ys
    else x :: y :: ys

/-- Model of `sorted(images, key=lambda image: image.filename)`
(stable, ascending). -/
def sortByFilename (l : List ImageFile) : List ImageFile :=
  l.foldl (fun acc x => insertByFilename x acc) []

/-- Model of `get_image_files` (datasets.py): walk entries whose name
matches the dataset pattern and is not excluded become `ImageFile`
records, sorted by filename.  The walk of the dataset directory is the
input `walk : List (String × String)` of `(directory, filename)` entries. -/
def get_image_files (walk : List (String × String))
    (exclude_images : List ImageFile) : List ImageFile :=
  let exclude_filenames := exclude_images.map (fun image => image.filename)
  sortByFilename (walk.filterMap (fun dn =>
    if matchesLfw dn.2 && !(exclude_filenames.contains dn.2) then
      mkImageFile dn.1 dn.2
    else none))

/-- One step of building the `person => images` mapping: append the image
to the entry of its person, creating the entry at the end if absent
(insertion-ordered, like a Python `defaultdict`). -/
def addToGroup : List (String × List ImageFile) → ImageFile →
    List (String × List ImageFile)
  | [], img => [(img.person, [img])]
  | (k, v) :: rest, img =>
    if k = img.person then (k, v ++ [img]) :: rest
    else (k, v) :: addToGroup rest img

/-- Model of the `images_by_person` mapping built in `get_image_pairs`. -/
def images_by_person (images : List ImageFile) :
    List (String × List ImageFile) :=
  images.foldl addToGroup []

/-- Lookup in the person mapping; missing keys give `[]`
(`defaultdict(list)` semantics). -/
def lookupGroup : List (String × List ImageFile) → String → List ImageFile
  | [], _ => []
  | (k, v) :: rest, person => if k = person then v else lookupGroup rest person

/-- Model of the state of the process-global `random` generator: a
deterministic value stream plus a cursor.  `random.getstate` /
`random.setstate` save and restore this pair. -/
structure RandState where
  f : Nat → Nat
  idx : Nat

/-- Model of the stream installed by `random.seed seed` (the Mersenne
twister is abstracted by a concrete arithmetic stream; only determinism
in the seed matters for the verified properties). -/
def seededStream (seed : Nat) : Nat → Nat :=
  fun i => (seed + 1) * 2654435761 + i * 40503

/-- Errors of a `get_image_pairs` run.  `emptyChoice` models the
`IndexError` of `random.choice` on an empty sequence, `badDir` the
exception raised for a missing dataset directory, and `outOfFuel` an
execution still looping when the fuel bound is reached. -/
inductive SampErr where
  | emptyChoice
  | badDir
  | outOfFuel
  deriving DecidableEq, Repr

/-- Model of `random.choice`: draw one stream value and index the list
with it; raises on an empty sequence.  Returns the choice and the
advanced cursor. -/
def rchoice (f : Nat → Nat) (idx : Nat) :
    (l : List α) → Except SampErr (α × Nat)
  | [] => .error .emptyChoice
  | a :: as =>
    .ok ((a :: as).get ⟨f idx % (as.length + 1),
      Nat.mod_lt _ (Nat.succ_pos _)⟩, idx + 1)

/-- Model of the positive-pair phase of `get_image_pairs`
(`while nb_added < nb_max // 2`).  Returns the updated
`(nb_added, pairs, added, cursor)`. -/
def posLoop (f : Nat → Nat) (names_gte2 : List String)
    (groups : List (String × List ImageFile))
    (pairs_of_same_imgs ignore_order : Bool) (quota : Nat) :
    Nat → Nat → List ImagePair → List String → Nat →
    Except SampErr (Nat × List ImagePair × List String × Nat)
  | 0, nb_added, pairs, added, idx =>
    if nb_added < quota then .error .outOfFuel
    else .ok (nb_added, pairs, added, idx)
  | fuel + 1, nb_added, pairs, added, idx =>
    if nb_added < quota then
      match rchoice f idx names_gte2 with
      | .error e => .error e
      | .ok (person, idx1) =>
        match rchoice f idx1 (lookupGroup groups person) with
        | .error e => .error e
        | .ok (image1, idx2) =>
          match rchoice f idx2
              (if pairs_of_same_imgs then lookupGroup groups person
               else (lookupGroup groups person).filter
                 (fun image => image ≠ image1)) with
          | .error e => .error e
          | .ok (image2, idx3) =>
            if added.contains
                ((mkImagePair image1 image2).get_key ignore_order) then
              posLoop f names_gte2 groups pairs_of_same_imgs ignore_order
                quota fuel nb_added pairs added idx3
            else
              posLoop f names_gte2 groups pairs_of_same_imgs ignore_order
                quota fuel (nb_added + 1)
                (pairs ++ [mkImagePair image1 image2])
                ((mkImagePair image1 image2).get_key ignore_order :: added)
                idx3
    else .ok (nb_added, pairs, added, idx)

/-- Model of the negative-pair phase of `get_image_pairs`
(`while nb_added < nb_max`). -/
def negLoop (f : Nat → Nat) (names : List String)
    (groups : List (String × List ImageFile))
    (ignore_order : Bool) (nb_max : Nat) :
    Nat → Nat → List ImagePair → List String → Nat →
    Except SampErr (Nat × List ImagePair × List String × Nat)
  | 0, nb_added, pairs, added, idx =>
    if nb_added < nb_max then .error .outOfFuel
    else .ok (nb_added, pairs, added, idx)
  | fuel + 1, nb_added, pairs, added, idx =>
    if nb_added < nb_max then
      match rchoice f idx names with
      | .error e => .error e
      | .ok (person1, idx1) =>
        match rchoice f idx1
            (names.filter (fun person => person ≠ person1)) with
        | .error e => .error e
        | .ok (person2, idx2) =>
          match rchoice f idx2 (lookupGroup groups person1) with
          | .error e => .error e
          | .ok (image1, idx3) =>
            match rchoice f idx3 (lookupGroup groups person2) with
            | .error e => .error e
            | .ok (image2, idx4) =>
              if added.contains
                  ((mkImagePair image1 image2).get_key ignore_order) then
                negLoop f names groups ignore_order nb_max fuel
                  nb_added pairs added idx4
              else
                negLoop f names groups ignore_order nb_max fuel
                  (nb_added + 1) (pairs ++ [mkImagePair image1 image2])
                  ((mkImagePair image1 image2).get_key ignore_order :: added)
                  idx4
    else .ok (nb_added, pairs, added, idx)

/-- Auxiliary recursion for the shuffle: repeatedly draw an index and
move that element to the front of the output.  Lists of length below two
draw nothing, like `random.shuffle`. -/
def shuffleGo (f : Nat → Nat) : Nat → List ImagePair → Nat →
    List ImagePair × Nat
  | _, [], idx => ([], idx)
  | _, [x], idx => ([x], idx)
  | 0, l, idx => (l, idx)
  | fuel + 1, a :: b :: rest, idx =>
    let l := a :: b :: rest
    let j := f idx % l.length
    let picked := l.get ⟨j, Nat.mod_lt _ (Nat.succ_pos _)⟩
    let (tail, idx') := shuffleGo f fuel (l.eraseIdx j) (idx + 1)
    (picked :: tail, idx')

/-- Model of `random.shuffle(pairs)`: a uniform permutation driven by the
stream. -/
def pyShuffle (f : Nat → Nat) (l : List ImagePair) (idx : Nat) :
    List ImagePair × Nat :=
  shuffleGo f l.length l idx

/-- The set of images excluded from the candidate pool: every image
occurring in an excluded pair (`get_image_pairs` preamble). -/
def excludedFiles (exclude_images : List ImagePair) : List ImageFile :=
  exclude_images.map (fun p => p.image1) ++
    exclude_images.map (fun p => p.image2)

/-- The candidate images of a sampling call: the dataset walk filtered by
the naming pattern and the exclusion set, sorted by filename. -/
def sampledImages (walk : List (String × String))
    (exclude_images : List ImagePair) : List ImageFile :=
  get_image_files walk (excludedFiles exclude_images)

/-- The `person => images` mapping of a sampling call. -/
def groupsOf (walk : List (String × String))
    (exclude_images : List ImagePair) : List (String × List ImageFile) :=
  images_by_person (sampledImages walk exclude_images)

/-- The person-name pool (`names`) of a sampling call. -/
def namesOf (walk : List (String × String))
    (exclude_images : List ImagePair) : List String :=
  (groupsOf walk exclude_images).map Prod.fst

/-- The pairable-person pool (`names_gte2`) of a sampling call. -/
def namesGte2Of (walk : List (String × String))
    (exclude_images : List ImagePair) : List String :=
  ((groupsOf walk exclude_images).filter
    (fun kv => 2 ≤ kv.2.length)).map Prod.fst

/-- Core of `get_image_pairs` (datasets.py): everything between the
seeding preamble and the restoring epilogue — directory validation,
enumeration, grouping, the two sampling phases and the final shuffle —
expressed over the active stream `f` and starting cursor `idx0`.
Returns the shuffled pairs and the final cursor. -/
def get_image_pairs_core (walk : List (String × String)) (is_dir : Bool)
    (nb_max : Nat) (pairs_of_same_imgs ignore_order : Bool)
    (exclude_images : List ImagePair) (f : Nat → Nat) (idx0 : Nat)
    (fuel : Nat) : Except SampErr (List ImagePair × Nat) :=
  if is_dir = false then .error .badDir
  else
    match posLoop f (namesGte2Of walk exclude_images)
        (groupsOf walk exclude_images) pairs_of_same_imgs ignore_order
        (nb_max / 2) fuel 0 [] [] idx0 with
    | .error e => .error e
    | .ok (nb_added, pairs, added, idx1) =>
      match negLoop f (namesOf walk exclude_images)
          (groupsOf walk exclude_images) ignore_order nb_max fuel
          nb_added pairs added idx1 with
      | .error e => .error e
      | .ok (_, pairs2, _, idx2) => .ok (pyShuffle f pairs2 idx2)

/-- Model of `get_image_pairs` (datasets.py).  When a seed is given the
incoming global state is saved, the generator reseeded, and the saved
state restored before returning; without a seed the caller's state is
used and left advanced.  The verbose statistics of the source only
print and are omitted. -/
def get_image_pairs (walk : List (String × String)) (is_dir : Bool)
    (nb_max : Nat) (pairs_of_same_imgs ignore_order : Bool)
    (exclude_images : List ImagePair) (seed : Option Nat) (fuel : Nat)
    (g0 : RandState) : Except SampErr (List ImagePair × RandState) :=
  match seed with
  | some s =>
    match get_image_pairs_core walk is_dir nb_max pairs_of_same_imgs
        ignore_order exclude_images (seededStream s) 0 fuel with
    | .error e => .error e
    | .ok (shuffled, _) => .ok (shuffled, g0)
  | none =>
    match get_image_pairs_core walk is_dir nb_max pairs_of_same_imgs
        ignore_order exclude_images g0.f g0.idx fuel with
    | .error e => .error e
    | .ok (shuffled, idx3) => .ok (shuffled, ⟨g0.f, idx3⟩)

/-- Label constant for same-person pairs (datasets.py `Y_SAME`); the
float32 cast of the source is exact, so labels are modelled in `ℚ`. -/
def Y_SAME : ℚ := 1

/-- Label constant for different-person pairs (datasets.py
`Y_DIFFERENT`). -/
def Y_DIFFERENT : ℚ := 0

/-- The module constant `IMAGE_CHANNELS` of datasets.py (the repository
runs the grayscale configuration; the `IMAGE_CHANNELS == 3` branches are
dead code and the model follows the live value). -/
def IMAGE_CHANNELS : Nat := 1

/-- Model of `ImageFile.get_content` for `IMAGE_CHANNELS = 1`: the
decode oracle `readImg` stands for `cv2.imread(filepath, 0)` and yields
the grayscale pixel grid (rows of columns); the code then asserts the
grid is 2-D and appends the channel axis (`img[:, :, np.newaxis]`). -/
def ImageFile.get_content (readImg : String → List (List Nat))
    (file : ImageFile) : List (List (List Nat)) :=
  (readImg file.filepath).map (fun row => row.map (fun v => [v]))

/-- Model of `cv2.resize(img, dsize)` on a single-channel image.  cv2
interprets `dsize` as `(width, height)` — columns first — so the result
is a 2-D grid of `dsize.2` rows and `dsize.1` columns (the channel axis
of a single-channel input is dropped; `np.squeeze` right after the call
in the source is a no-op either way).  The resampled pixel values are
the interpolation oracle `interp` applied to the source image and the
target coordinates. -/
def cv2_resize (interp : List (List (List Nat)) → Nat → Nat → Nat)
    (img : List (List (List Nat))) (dsize : Nat × Nat) :
    List (List Nat) :=
  (List.range dsize.2).map (fun row =>
    (List.range dsize.1).map (fun col => interp img row col))

/-- The `% 256` cast of `np.array(..., dtype=np.uint8)` over a 3-D
block. -/
def u8cast3 (img : List (List (List Nat))) : List (List (List Nat)) :=
  img.map (fun row => row.map (fun cell => cell.map (fun v => v % 256)))

/-- Model of `ImagePair.get_contents` (datasets.py:88-120, the
`IMAGE_CHANNELS = 1` path): load both images, and for each whose shape
`(shape[0], shape[1])` differs from `(height, width)` call
`cv2.resize(img, (height, width))` — note the source passes
`(height, width)` where cv2 expects `(width, height)` — squeeze, and
re-append the channel axis; finally stack both as a uint8 array. -/
def ImagePair.get_contents (p : ImagePair)
    (readImg : String → List (List Nat))
    (interp : List (List (List Nat)) → Nat → Nat → Nat)
    (height width : Nat) : List (List (List (List Nat))) :=
  let img1 := p.image1.get_content readImg
  let img2 := p.image2.get_content readImg
  let img1b := if img1.length ≠ height ∨ (img1.headD []).length ≠ width
    then (cv2_resize interp img1 (height, width)).map
      (fun row => row.map (fun v => [v]))
    else img1
  let img2b := if img2.length ≠ height ∨ (img2.headD []).length ≠ width
    then (cv2_resize interp img2 (height, width)).map
      (fun row => row.map (fun v => [v]))
    else img2
  [u8cast3 img1b, u8cast3 img2b]

/-- Shape test for one row of the preallocated
`np.zeros((N, 2, height, width, IMAGE_CHANNELS), dtype=np.uint8)` array:
the assignment `X[i] = block` succeeds exactly when the block has shape
`(2, height, width, 1)`.  (numpy broadcasting cannot rescue the
transposed `(2, width, height, 1)` block the buggy resize produces for
`height ≠ width`: aligning trailing dimensions fails as soon as a source
dimension exceeds 1 where the target differs.) -/
def shape4_matches (block : List (List (List (List Nat))))
    (height width : Nat) : Bool :=
  (block.length == 2) &&
  block.all (fun img => (img.length == height) &&
    img.all (fun row => (row.length == width) &&
      row.all (fun cell => cell.length == IMAGE_CHANNELS)))

/-- Error raised by `image_pairs_to_xy`: the `ValueError` of assigning
a wrongly-shaped block into the preallocated `X`. -/
inductive XyErr where
  | valueError
  deriving DecidableEq, Repr

/-- Model of `image_pairs_to_xy` (datasets.py:423-443): preallocate `X`
of shape `(N, 2, height, width, 1)` and `y` of length `N`, then per
input pair store its `get_contents` block into row `i` of `X` — raising
`ValueError` when the block's shape does not match — and its
same-person label into `y[i]`. -/
def image_pairs_to_xy (readImg : String → List (List Nat))
    (interp : List (List (List Nat)) → Nat → Nat → Nat)
    (image_pairs : List ImagePair) (height width : Nat) :
    Except XyErr
      (List (List (List (List (List Nat)))) × List ℚ) :=
  match image_pairs.mapM (fun pair =>
      let block := pair.get_contents readImg interp height width
      if shape4_matches block height width then some block else none) with
  | none => .error .valueError
  | some xs =>
    .ok (xs, image_pairs.map (fun pair =>
      if pair.same_person then Y_SAME else Y_DIFFERENT))

/-- Model of Python `str.startswith`. -/
def strStartsWith (s pre : String) : Bool :=
  pre.data.isPrefixOf s.data

/-- Model of Python `str.endswith`. -/
def strEndsWith (s post : String) : Bool :=
  post.data.isSuffixOf s.data

/-- Model of Python `str.split(".")` on character lists: split at every
occurrence of the separator. -/
def splitOnChar (c : Char) : List Char → List (List Char)
  | [] => [[]]
  | x :: xs =>
    match splitOnChar c xs with
    | [] => [[x]]
    | h :: t => if x = c then [] :: h :: t else (x :: h) :: t

/-- The filenames of a weights directory that match the identifier:
`<identifier>.` prefix and `.weights` suffix (saveload.py). -/
def matching_filenames (files : List String) (identifier : String) :
    List String :=
  files.filter (fun file =>
    strStartsWith file (identifier ++ ".") && strEndsWith file ".weights")

/-- The matching filenames that end in `.last.weights`. -/
def last_filenames (files : List String) (identifier : String) :
    List String :=
  (matching_filenames files identifier).filter
    (fun file => strEndsWith file ".last.weights")

/-- Epoch parsed from a weights filename: the digits of its second
dot-separated segment (`int(re.sub("[^0-9]", "", f.split(".")[1]))`). -/
def epochOfFilename (file : String) : Option Nat :=
  pyInt (digitsOnly ⟨(splitOnChar '.' file.data).getD 1 []⟩)

/-- Descending insertion used to model `sorted(epochs, reverse=True)`. -/
def insertDesc (x : Nat) : List Nat → List Nat
  | [] => [x]
  | y :: ys => if x ≤ y then y :: insertDesc x ys else x :: y :: ys

/-- Model of `sorted(epochs, reverse=True)`. -/
def sortDesc (l : List Nat) : List Nat :=
  l.foldl (fun acc x => insertDesc x acc) []

/-- The epoch marker returned by the checkpoint loader: an epoch number
(`-1` when nothing was found) or the `"last"` marker. -/
inductive EpochMarker where
  | num (n : Int)
  | last
  deriving DecidableEq, Repr

/-- Errors of the checkpoint loader.  `ambiguous` models the exception
for multiple `.last.weights` files, `badEpoch` the `ValueError` /
`IndexError` of the epoch parse, `noWeights` the exception of
`load_previous_model` when no weights were found. -/
inductive LoadErr where
  | ambiguous
  | badEpoch
  | noWeights
  deriving DecidableEq, Repr

/-- Model of `load_weights` (saveload.py).  `files` is the list of
regular file names in `save_weights_dir`.  The result carries the
returned `(success, epoch)` tuple and, as the recorded side effect, the
filepath loaded into the model (`none` when nothing was loaded). -/
def load_weights (save_weights_dir : String) (files : List String)
    (previous_identifier : String) :
    Except LoadErr ((Bool × EpochMarker) × Option String) :=
  let filenames := matching_filenames files previous_identifier
  if filenames.length = 0 then .ok ((false, .num (-1)), none)
  else
    let filenames_last := last_filenames files previous_identifier
    if 2 ≤ filenames_last.length then .error .ambiguous
    else if filenames_last.length = 1 then
      .ok ((true, .last), some (pyJoin save_weights_dir
        (filenames_last.getD 0 "")))
    else
      match filenames.mapM epochOfFilename with
      | none => .error .badEpoch
      | some epochs =>
        let sorted := sortDesc epochs
        let top := sorted.getD 0 0
        let fname := previous_identifier ++ ".at" ++ toString top ++
          ".weights"
        .ok ((true, .num top), some (pyJoin save_weights_dir fname))

/-- Model of the weight-loading decision of `load_previous_model`
(saveload.py): propagate `load_weights` errors, raise when no weights
were found, and otherwise hand the resolved epoch marker to the history
replay.  The history replay itself calls the `utils.History` module,
which is outside the sources, and is omitted. -/
def load_previous_model (save_weights_dir : String) (files : List String)
    (identifier : String) : Except LoadErr EpochMarker :=
  match load_weights save_weights_dir files identifier with
  | .error e => .error e
  | .ok ((success, marker), _) =>
    if success then .ok marker else .error .noWeights

/-- The candidate pairs of the positive phase over explicit pools: a
pairable person, one of their images, and a second image drawn from the
same distribution the loop samples from. -/
def posCandList (names_gte2 : List String)
    (groups : List (String × List ImageFile))
    (pairs_of_same_imgs : Bool) : List ImagePair :=
  names_gte2.bind (fun person =>
    (lookupGroup groups person).bind (fun image1 =>
      ((if pairs_of_same_imgs then lookupGroup groups person
        else (lookupGroup groups person).filter
          (fun image => image ≠ image1))).map
        (fun image2 => mkImagePair image1 image2)))

/-- The candidate pairs of the negative phase over explicit pools: two
distinct person names and one image of each. -/
def negCandList (names : List String)
    (groups : List (String × List ImageFile)) : List ImagePair :=
  names.bind (fun person1 =>
    (names.filter (fun person => person ≠ person1)).bind (fun person2 =>
      (lookupGroup groups person1).bind (fun image1 =>
        (lookupGroup groups person2).map
          (fun image2 => mkImagePair image1 image2))))

/-- The candidate pairs of the positive phase of a sampling call. -/
def pos_candidates (walk : List (String × String))
    (exclude_images : List ImagePair) (pairs_of_same_imgs : Bool) :
    List ImagePair :=
  posCandList (namesGte2Of walk exclude_images)
    (groupsOf walk exclude_images) pairs_of_same_imgs

/-- The candidate pairs of the negative phase of a sampling call. -/
def neg_candidates (walk : List (String × String))
    (exclude_images : List ImagePair) : List ImagePair :=
  negCandList (namesOf walk exclude_images) (groupsOf walk exclude_images)

/-- The dedup keys of the positive candidate pairs. -/
def pos_keys (walk : List (String × String))
    (exclude_images : List ImagePair)
    (pairs_of_same_imgs ignore_order : Bool) : List String :=
  (pos_candidates walk exclude_images pairs_of_same_imgs).map
    (fun p => p.get_key ignore_order)

/-- The dedup keys of the negative candidate pairs. -/
def neg_keys (walk : List (String × String))
    (exclude_images : List ImagePair) (ignore_order : Bool) : List String :=
  (neg_candidates walk exclude_images).map
    (fun p => p.get_key ignore_order)

/-- A string is dollar-free when it avoids the `$` character of the
dedup-key separator (true of LFW filepaths). -/
def dollarFree (s : String) : Bool :=
  !s.data.contains '$'

/-- Splice two streams at a cut point. -/
def spliceStreams (cut : Nat) (f g : Nat → Nat) : Nat → Nat :=
  fun i => if i < cut then f i else g i

/-- Concrete dataset fixture: two images of person `A`, one of `B`. -/
def walkAB : List (String × String) :=
  [("d", "A_1.pgm"), ("d", "A_2.pgm"), ("d", "B_1.pgm")]

/-- Record of `d/A_1.pgm` in the fixture dataset. -/
def fA1 : ImageFile := ⟨"d/A_1.pgm", "A_1.pgm", "A", 1⟩

/-- Record of `d/A_2.pgm` in the fixture dataset. -/
def fA2 : ImageFile := ⟨"d/A_2.pgm", "A_2.pgm", "A", 2⟩

/-- Record of `d/B_1.pgm` in the fixture dataset. -/
def fB1 : ImageFile := ⟨"d/B_1.pgm", "B_1.pgm", "B", 1⟩

/-- The all-zero random stream, used as a concrete generator state. -/
def gZero : RandState := ⟨fun _ => 0, 0⟩

/-- Shape of every pair the positive phase can construct: a pairable
person, one of their images, and a second image from the branch the
`pairs_of_same_imgs` flag selects. -/
def PosDrawn (names_gte2 : List String)
    (groups : List (String × List ImageFile)) (pairs_of_same_imgs : Bool)
    (p : ImagePair) : Prop :=
  ∃ person ∈ names_gte2, ∃ image1 ∈ lookupGroup groups person,
    ∃ image2 ∈ (if pairs_of_same_imgs then lookupGroup groups person
      else (lookupGroup groups person).filter
        (fun image => image ≠ image1)),
      p = mkImagePair image1 image2

/-- Shape of every pair the negative phase can construct: two distinct
person names and one image of each. -/
def NegDrawn (names : List String)
    (groups : List (String × List ImageFile)) (p : ImagePair) : Prop :=
  ∃ person1 ∈ names,
    ∃ person2 ∈ names.filter (fun person => person ≠ person1),
      ∃ image1 ∈ lookupGroup groups person1,
        ∃ image2 ∈ lookupGroup groups person2,
          p = mkImagePair image1 image2

/-! ## Basic lemmas about the string and list helpers -/

theorem insertByFilename_perm (x : ImageFile) (l : List ImageFile) :
    List.Perm (insertByFilename x l) (x :: l) := by
  induction l with
  | nil => simp [insertByFilename]
  | cons y ys ih =>
    unfold insertByFilename
    by_cases h : strLe y.filename x.filename
    · simp only [h, if_pos]
      exact (ih.cons y).trans (List.Perm.swap x y ys)
    · simp [h]

theorem sortByFilename_aux_perm (l acc : List ImageFile) :
    List.Perm (l.foldl (fun a x => insertByFilename x a) acc) (acc ++ l) := by
  induction l generalizing acc with
  | nil => simp
  | cons a as ih =>
    simp only [List.foldl_cons]
    refine (ih (insertByFilename a acc)).trans ?_
    have h1 : List.Perm (insertByFilename a acc ++ as) ((a :: acc) ++ as) :=
      (insertByFilename_perm a acc).append_right as
    exact h1.trans List.perm_middle.symm

theorem sortByFilename_perm (l : List ImageFile) :
    List.Perm (sortByFilename l) l := by
  simpa using sortByFilename_aux_perm l []

/-! ## C3: pair flags are determined by the two records -/

/-- C3: for every ImagePair constructed from two image records,
`same_person` is true iff the records' person names are equal and
`same_image` is true iff their filepaths are equal; both flags (and the
stored records) are computed by the constructor from the two records
alone, so they are never independently settable. -/
theorem C3_pair_flags (image1 image2 : ImageFile) :
    ((mkImagePair image1 image2).same_person = true ↔
      image1.person = image2.person) ∧
    ((mkImagePair image1 image2).same_image = true ↔
      image1.filepath = image2.filepath) ∧
    (mkImagePair image1 image2).image1 = image1 ∧
    (mkImagePair image1 image2).image2 = image2 := by
  refine ⟨?_, ?_, rfl, rfl⟩ <;> simp [mkImagePair]

/-! ## C5: the array materializer and the cv2.resize dsize bug -/

theorem mapM_blocks_of_all_shapes (readImg : String → List (List Nat))
    (interp : List (List (List Nat)) → Nat → Nat → Nat)
    (height width : Nat) :
    ∀ image_pairs : List ImagePair,
    (∀ pair ∈ image_pairs,
      shape4_matches (pair.get_contents readImg interp height width)
        height width = true) →
    image_pairs.mapM (fun pair =>
      let block := pair.get_contents readImg interp height width
      if shape4_matches block height width then some block else none) =
    some (image_pairs.map (fun pair =>
      pair.get_contents readImg interp height width)) := by
  intro image_pairs
  induction image_pairs with
  | nil => intro _; rfl
  | cons a as ih =>
    intro h
    rw [List.mapM_cons]
    dsimp only
    rw [if_pos (h a (List.mem_cons_self a as))]
    rw [ih (fun p hp => h p (List.mem_cons_of_mem a hp))]
    rfl

/-- When every pair's stacked block already has the target shape (in
particular when no image needs resizing), `image_pairs_to_xy` returns
normally: `X` is the per-pair block list in input order and `y` the
parallel label list with `1` exactly for same-person pairs — the part
of the materializer contract that the code does deliver. -/
theorem image_pairs_to_xy_ok_of_shapes (readImg : String → List (List Nat))
    (interp : List (List (List Nat)) → Nat → Nat → Nat)
    (image_pairs : List ImagePair) (height width : Nat)
    (h : ∀ pair ∈ image_pairs,
      shape4_matches (pair.get_contents readImg interp height width)
        height width = true) :
    image_pairs_to_xy readImg interp image_pairs height width =
      .ok (image_pairs.map (fun pair =>
          pair.get_contents readImg interp height width),
        image_pairs.map (fun pair =>
          if pair.same_person then Y_SAME else Y_DIFFERENT)) := by
  unfold image_pairs_to_xy
  rw [mapM_blocks_of_all_shapes readImg interp height width
    image_pairs h]

/-- C5 at a failing input: the source passes `(height, width)` to
`cv2.resize`, whose `dsize` convention is `(width, height)`, so an
image that needs resizing to a non-square target comes back transposed.
Here both decoded images are `1 × 1`, the target is
`(height, width) = (2, 3)`, each resized image is a `3 × 2` grid, the
stacked block has shape `(2, 3, 2, 1)` instead of `(2, 2, 3, 1)`, and
`X[i] = pair.get_contents(...)` raises `ValueError` instead of the call
returning the claimed `(N, 2, height, width, 1)` array. -/
theorem C5_resize_dsize_bug :
    ((mkImagePair fA1 fB1).get_contents (fun _ => [[7]])
        (fun _ _ _ => 5) 2 3).map
      (fun img => (img.length, (img.headD []).length)) =
      [(3, 2), (3, 2)] ∧
    image_pairs_to_xy (fun _ => [[7]]) (fun _ _ _ => 5)
      [mkImagePair fA1 fB1] 2 3 = .error .valueError := by
  exact ⟨by decide, rfl⟩

/-! ## C6 and C7: the checkpoint loader -/

theorem insertDesc_getD (x : Nat) (l : List Nat) :
    (insertDesc x l).getD 0 0 = Nat.max x (l.getD 0 0) := by
  cases l with
  | nil => simp [insertDesc]
  | cons y ys =>
    unfold insertDesc
    by_cases h : x ≤ y
    · simp [h, Nat.max_eq_right h]
    · simp [h, Nat.max_eq_left (Nat.le_of_not_le h)]

theorem sortDesc_aux_getD (l acc : List Nat) :
    ((l.foldl (fun a x => insertDesc x a) acc).getD 0 0) =
      l.foldl Nat.max (acc.getD 0 0) := by
  induction l generalizing acc with
  | nil => rfl
  | cons a as ih =>
    simp only [List.foldl_cons]
    rw [ih, insertDesc_getD]
    congr 1
    exact Nat.max_comm _ _

theorem sortDesc_getD (l : List Nat) :
    (sortDesc l).getD 0 0 = l.foldl Nat.max 0 := by
  simpa using sortDesc_aux_getD l []

theorem last_filenames_sub (files : List String) (identifier : String) :
    ∀ lf ∈ last_filenames files identifier,
      lf ∈ matching_filenames files identifier := by
  intro lf h
  exact List.mem_of_mem_filter h

/-- C6: when exactly one `<identifier>.<...>.last.weights` file exists,
`load_weights` loads it and returns `(true, "last")`; otherwise it
parses the epoch from each matching filename's middle segment
(non-digit characters stripped), returns `(true, highest epoch)` and
loads the file of that highest epoch. -/
theorem C6_load_weights (dir : String) (files : List String)
    (identifier : String) :
    (∀ lf, last_filenames files identifier = [lf] →
      load_weights dir files identifier =
        .ok ((true, .last), some (pyJoin dir lf))) ∧
    (∀ epochs, last_filenames files identifier = [] →
      (matching_filenames files identifier).mapM epochOfFilename =
        some epochs →
      matching_filenames files identifier ≠ [] →
      load_weights dir files identifier =
        .ok ((true, .num ((epochs.foldl Nat.max 0 : Nat) : Int)),
          some (pyJoin dir (identifier ++ ".at" ++
            toString (epochs.foldl Nat.max 0) ++ ".weights")))) := by
  constructor
  · intro lf h
    have hmem : lf ∈ matching_filenames files identifier :=
      last_filenames_sub files identifier lf (by simp [h])
    have hne : (matching_filenames files identifier).length ≠ 0 := by
      intro hc
      rw [List.length_eq_zero] at hc
      simp [hc] at hmem
    unfold load_weights
    rw [if_neg hne, h]
    norm_num
  · intro epochs hlast hmapm hne
    have hlen : (matching_filenames files identifier).length ≠ 0 := by
      intro hc; rw [List.length_eq_zero] at hc; exact hne hc
    unfold load_weights
    rw [if_neg hlen, hlast]
    simp only [List.length_nil]
    rw [if_neg (by norm_num), if_neg (by norm_num), hmapm]
    dsimp only
    rw [sortDesc_getD]

/-- Witness for C6 at the files of the spec's example. -/
theorem C6_load_weights_witness :
    load_weights "w" ["model1.at100.weights", "model1.at200.weights"]
      "model1" =
      .ok ((true, .num 200), some "w/model1.at200.weights") := by
  have h := (C6_load_weights "w"
    ["model1.at100.weights", "model1.at200.weights"] "model1").2
    [100, 200] (by decide) (by decide) (by decide)
  exact h

/-- C7: `load_weights` raises the ambiguity error when two or more
`.last.weights` files match, returns `found = false` with nothing loaded
when no file matches, and `load_previous_model` raises exactly when
`load_weights` reports `found = false`. -/
theorem C7_load_errors (dir : String) (files : List String)
    (identifier : String) :
    (2 ≤ (last_filenames files identifier).length →
      load_weights dir files identifier = .error .ambiguous) ∧
    (matching_filenames files identifier = [] →
      load_weights dir files identifier =
        .ok ((false, .num (-1)), none)) ∧
    (∀ found marker loaded,
      load_weights dir files identifier = .ok ((found, marker), loaded) →
      (load_previous_model dir files identifier = .error .noWeights ↔
        found = false)) := by
  refine ⟨?_, ?_, ?_⟩
  · intro h2
    have hex : ∃ lf, lf ∈ last_filenames files identifier := by
      cases hl : last_filenames files identifier with
      | nil => rw [hl] at h2; simp at h2
      | cons lf rest => exact ⟨lf, List.mem_cons_self lf rest⟩
    obtain ⟨lf, hlf⟩ := hex
    have hmem := last_filenames_sub files identifier lf hlf
    have hne : (matching_filenames files identifier).length ≠ 0 := by
      intro hc; rw [List.length_eq_zero] at hc; simp [hc] at hmem
    unfold load_weights
    rw [if_neg hne, if_pos h2]
  · intro h
    unfold load_weights
    rw [if_pos (by rw [h]; rfl)]
  · intro found marker loaded h
    unfold load_previous_model
    rw [h]
    cases found <;> simp

/-- Witness for C7: concrete ambiguity, not-found and fatal-raise
outcomes. -/
theorem C7_load_errors_witness :
    load_weights "w" ["m.a.last.weights", "m.b.last.weights"] "m" =
      .error .ambiguous ∧
    load_weights "w" [] "m" = .ok ((false, .num (-1)), none) ∧
    (load_previous_model "w" [] "m" = .error .noWeights ↔
      false = false) := by
  refine ⟨(C7_load_errors "w" ["m.a.last.weights", "m.b.last.weights"]
      "m").1 (by decide),
    (C7_load_errors "w" [] "m").2.1 (by decide),
    (C7_load_errors "w" [] "m").2.2 false (.num (-1)) none ?_⟩
  exact (C7_load_errors "w" [] "m").2.1 (by decide)

/-! ## C8: filename parsing and enumeration -/

theorem takeWhile_append_all {p : Char → Bool} (l1 l2 : List Char)
    (h : ∀ c ∈ l1, p c = true) :
    (l1 ++ l2).takeWhile p = l1 ++ l2.takeWhile p := by
  induction l1 with
  | nil => simp
  | cons a as ih =>
    have ha : p a = true := h a (by simp)
    simp only [List.cons_append, List.takeWhile_cons, ha, if_pos]
    rw [ih (fun c hc => h c (by simp [hc]))]

theorem takeWhile_all {p : Char → Bool} (l : List Char)
    (h : ∀ c ∈ l, p c = true) : l.takeWhile p = l := by
  have := takeWhile_append_all l [] h
  simpa using this

theorem str_eq_empty_iff (s : String) : s = "" ↔ s.data = [] := by
  rw [String.ext_iff]

theorem pyJoin_empty_dir (n : String) : pyJoin "" n = n := by
  unfold pyJoin
  simp

theorem pyJoin_slash_dir (d n : String) (hd : d ≠ "")
    (hg : d.data.getLast? = some '/') : pyJoin d n = d ++ n := by
  unfold pyJoin
  simp [hd, hg]

theorem pyJoin_sep_dir (d n : String) (hd : d ≠ "")
    (hg : d.data.getLast? ≠ some '/') : pyJoin d n = d ++ "/" ++ n := by
  unfold pyJoin
  simp [hd, hg]

theorem basenameStr_mk_eq (cs : List Char) :
    basenameStr ⟨cs⟩ = ⟨(cs.reverse.takeWhile (fun c => c ≠ '/')).reverse⟩ :=
  rfl

theorem basenameStr_pyJoin (d n : String) (h : '/' ∉ n.data) :
    basenameStr (pyJoin d n) = n := by
  have hall : ∀ c ∈ n.data.reverse, (fun c => decide (c ≠ '/')) c = true := by
    intro c hc
    simp only [decide_eq_true_eq]
    intro hceq
    exact h (by simpa [hceq] using (List.mem_reverse.mp hc))
  by_cases hd : d = ""
  · rw [hd, pyJoin_empty_dir]
    unfold basenameStr
    rw [takeWhile_all n.data.reverse hall, List.reverse_reverse]
  · by_cases hg : d.data.getLast? = some '/'
    · rw [pyJoin_slash_dir d n hd hg]
      unfold basenameStr
      have hrev : ∃ t, d.data.reverse = '/' :: t := by
        cases hr : d.data.reverse with
        | nil =>
          have h0 : d.data.getLast? = none := by
            rw [← List.head?_reverse, hr]; rfl
          rw [h0] at hg; cases hg
        | cons c t =>
          have h0 : d.data.getLast? = some c := by
            rw [← List.head?_reverse, hr]; rfl
          rw [h0] at hg
          cases hg
          exact ⟨t, rfl⟩
      obtain ⟨t, ht⟩ := hrev
      rw [String.data_append, List.reverse_append, ht,
        takeWhile_append_all _ _ hall]
      simp [List.takeWhile_cons]
    · rw [pyJoin_sep_dir d n hd hg]
      unfold basenameStr
      have hslash : ("/" : String).data = ['/'] := by decide
      have hsplit : (d ++ "/" ++ n).data = (d.data ++ ['/']) ++ n.data := by
        rw [String.data_append, String.data_append, hslash]
      rw [hsplit, List.reverse_append, List.reverse_append]
      have hassoc : (['/'].reverse ++ d.data.reverse) =
          '/' :: d.data.reverse := by simp
      rw [hassoc, takeWhile_append_all _ _ hall]
      simp [List.takeWhile_cons]

theorem digitsOnly_all_digits (t : String) :
    (digitsOnly t).data.all Char.isDigit = true := by
  simp only [digitsOnly, List.all_eq_true]
  intro c hc
  exact (List.mem_filter.mp hc).2

theorem pyInt_digitsOnly_eq_none (t : String) :
    pyInt (digitsOnly t) = none ↔ digitsOnly t = "" := by
  unfold pyInt
  by_cases h : (digitsOnly t).data = []
  · simp [h, (str_eq_empty_iff _).mpr h]
  · simp [h, digitsOnly_all_digits t]
    intro hc
    exact h ((str_eq_empty_iff _).mp hc)

theorem mkImageFile_unfold (d n : String) :
    mkImageFile d n =
      match pyInt (digitsOnly (basenameStr (pyJoin d n))) with
      | none => none
      | some num =>
        some { filepath := pyJoin d n, filename := n,
               person := filepath_to_person_name (pyJoin d n),
               number := num } :=
  rfl

theorem mkImageFile_none_iff (d n : String) :
    mkImageFile d n = none ↔
      digitsOnly (basenameStr (pyJoin d n)) = "" := by
  rw [mkImageFile_unfold]
  cases h : pyInt (digitsOnly (basenameStr (pyJoin d n))) with
  | none =>
    simp [(pyInt_digitsOnly_eq_none _).mp h]
  | some k =>
    simp only [reduceCtorEq, false_iff, ne_eq]
    intro hc
    rw [(pyInt_digitsOnly_eq_none _).mpr hc] at h
    cases h

theorem mkImageFile_some (d n : String) (img : ImageFile)
    (h : mkImageFile d n = some img) :
    img.filename = n ∧ img.filepath = pyJoin d n ∧
      img.person = filepath_to_person_name (pyJoin d n) := by
  rw [mkImageFile_unfold] at h
  cases hn : pyInt (digitsOnly (basenameStr (pyJoin d n))) with
  | none => rw [hn] at h; cases h
  | some k =>
    rw [hn] at h
    cases h
    exact ⟨rfl, rfl, rfl⟩

theorem matchesLfw_unfold (n : String) :
    matchesLfw n =
      match rfindIdx n.data '.' with
      | none => false
      | some i =>
        lfwExtensions.contains (n.data.drop (i + 1)) &&
          !((n.data.take i).reverse.takeWhile Char.isDigit).isEmpty &&
          (((n.data.take i).reverse.drop
            ((n.data.take i).reverse.takeWhile Char.isDigit).length).head? ==
              some '_') :=
  rfl

theorem matchesLfw_has_digit (n : String) (h : matchesLfw n = true) :
    ∃ c ∈ n.data, c.isDigit = true := by
  rw [matchesLfw_unfold] at h
  cases hr : rfindIdx n.data '.' with
  | none => rw [hr] at h; cases h
  | some i =>
    rw [hr] at h
    simp only [Bool.and_eq_true, Bool.not_eq_true'] at h
    obtain ⟨⟨-, hds⟩, -⟩ := h
    have hne : (n.data.take i).reverse.takeWhile Char.isDigit ≠ [] := by
      intro hc
      rw [hc] at hds
      cases hds
    obtain ⟨c, hc⟩ := List.exists_mem_of_ne_nil _ hne
    refine ⟨c, ?_, ?_⟩
    · have h1 : c ∈ (n.data.take i).reverse :=
        (List.takeWhile_prefix Char.isDigit).sublist.subset hc
      have h2 : c ∈ n.data.take i := List.mem_reverse.mp h1
      exact List.take_subset i n.data h2
    · exact List.mem_takeWhile_imp hc

theorem digitsOnly_ne_empty (n : String) (c : Char) (hc : c ∈ n.data)
    (hd : c.isDigit = true) : digitsOnly n ≠ "" := by
  intro h
  have hdata : (digitsOnly n).data = [] := (str_eq_empty_iff _).mp h
  have : c ∈ (digitsOnly n).data := by
    simp only [digitsOnly]
    exact List.mem_filter.mpr ⟨hc, hd⟩
  rw [hdata] at this
  cases this

/-- C8 counterexample: a filename that fails the enumeration pattern but
still constructs an image record without any error. -/
theorem C8_counterexample :
    matchesLfw "Alice2_abc.pgm" = false ∧
      (mkImageFile "d" "Alice2_abc.pgm").isSome = true := by
  constructor <;> decide

/-- C8 amended: constructing an image record fails exactly when the base
filename holds no digit at all; a pattern-matching (slash-free) filename
always constructs successfully; and directory enumeration only ever turns
pattern-matching filenames into records, so malformed names are skipped.
(The original claim that every non-matching filename fails to construct
is refuted by `C8_counterexample`.) -/
theorem C8_amended :
    (∀ d n, mkImageFile d n = none ↔
      digitsOnly (basenameStr (pyJoin d n)) = "") ∧
    (∀ walk exclude_images img,
      img ∈ get_image_files walk exclude_images →
      matchesLfw img.filename = true) ∧
    (∀ d n, '/' ∉ n.data → matchesLfw n = true →
      (mkImageFile d n).isSome = true) := by
  refine ⟨mkImageFile_none_iff, ?_, ?_⟩
  · intro walk exclude_images img h
    unfold get_image_files at h
    have h2 := (sortByFilename_perm _).mem_iff.mp h
    rw [List.mem_filterMap] at h2
    obtain ⟨dn, _, hsome⟩ := h2
    by_cases hc : matchesLfw dn.2 &&
        !((exclude_images.map (fun image => image.filename)).contains dn.2)
    · rw [if_pos hc] at hsome
      have hfn := (mkImageFile_some dn.1 dn.2 img hsome).1
      rw [hfn]
      exact (Bool.and_eq_true _ _).mp hc |>.1
    · rw [if_neg hc] at hsome
      cases hsome
  · intro d n hslash hm
    obtain ⟨c, hc, hd⟩ := matchesLfw_has_digit n hm
    have hne : digitsOnly (basenameStr (pyJoin d n)) ≠ "" := by
      rw [basenameStr_pyJoin d n hslash]
      exact digitsOnly_ne_empty n c hc hd
    cases hmk : mkImageFile d n with
    | none => exact absurd ((mkImageFile_none_iff d n).mp hmk) hne
    | some img => rfl

/-- Witness for C8 amended at a concrete slash-free matching filename. -/
theorem C8_amended_witness :
    ('/' ∉ "A_1.pgm".data ∧ matchesLfw "A_1.pgm" = true) ∧
      (mkImageFile "d" "A_1.pgm").isSome = true :=
  ⟨⟨by decide, by decide⟩, C8_amended.2.2 "d" "A_1.pgm" (by decide) (by decide)⟩

/-! ## Lemmas about the person grouping -/

theorem lookupGroup_addToGroup (acc : List (String × List ImageFile))
    (img : ImageFile) (k : String) :
    lookupGroup (addToGroup acc img) k =
      lookupGroup acc k ++ (if img.person = k then [img] else []) := by
  induction acc with
  | nil =>
    unfold addToGroup lookupGroup
    by_cases h : img.person = k
    · simp [h]
    · simp [h, lookupGroup]
  | cons kv rest ih =>
    obtain ⟨k0, v0⟩ := kv
    unfold addToGroup
    by_cases h0 : k0 = img.person
    · simp only [h0, if_pos rfl]
      unfold lookupGroup
      by_cases hk : img.person = k
      · simp [hk, h0]
      · have : ¬(k0 = k) := by rw [h0]; exact hk
        simp [h0, hk, this]
    · simp only [h0, if_neg h0]
      unfold lookupGroup
      by_cases hk : k0 = k
      · have : ¬(img.person = k) := by
          intro hc; exact h0 (hk.trans hc.symm)
        simp [hk, this]
      · simp [hk, ih]

theorem lookupGroup_foldl (l : List ImageFile)
    (acc : List (String × List ImageFile)) (k : String) :
    lookupGroup (l.foldl addToGroup acc) k =
      lookupGroup acc k ++ l.filter (fun i => i.person == k) := by
  induction l generalizing acc with
  | nil => simp
  | cons a as ih =>
    simp only [List.foldl_cons, List.filter_cons]
    rw [ih (addToGroup acc a), lookupGroup_addToGroup]
    by_cases h : a.person = k
    · simp [h, List.append_assoc]
    · have hb : (a.person == k) = false := by
        simp [h]
      simp [h, hb]

theorem lookupGroup_images_by_person (images : List ImageFile)
    (k : String) :
    lookupGroup (images_by_person images) k =
      images.filter (fun i => i.person == k) := by
  unfold images_by_person
  rw [lookupGroup_foldl]
  rfl

theorem keys_addToGroup (acc : List (String × List ImageFile))
    (img : ImageFile) :
    (addToGroup acc img).map Prod.fst =
      if img.person ∈ acc.map Prod.fst then acc.map Prod.fst
      else acc.map Prod.fst ++ [img.person] := by
  induction acc with
  | nil => simp [addToGroup]
  | cons kv rest ih =>
    obtain ⟨k0, v0⟩ := kv
    unfold addToGroup
    by_cases h0 : k0 = img.person
    · simp [h0]
    · have hne : ¬(img.person = k0) := fun hc => h0 hc.symm
      rw [if_neg h0]
      simp only [List.map_cons]
      rw [ih]
      have hmemc : (img.person ∈ k0 :: rest.map Prod.fst) ↔
          (img.person ∈ rest.map Prod.fst) := by
        simp [List.mem_cons, hne]
      by_cases hm : img.person ∈ rest.map Prod.fst
      · rw [if_pos hm, if_pos (hmemc.mpr hm)]
      · rw [if_neg hm, if_neg (fun hc => hm (hmemc.mp hc))]
        simp

theorem mem_keys_foldl (l : List ImageFile)
    (acc : List (String × List ImageFile)) (p : String) :
    p ∈ (l.foldl addToGroup acc).map Prod.fst ↔
      p ∈ acc.map Prod.fst ∨ ∃ i ∈ l, i.person = p := by
  induction l generalizing acc with
  | nil => simp
  | cons a as ih =>
    simp only [List.foldl_cons]
    rw [ih (addToGroup acc a)]
    rw [keys_addToGroup]
    constructor
    · rintro (h | h)
      · by_cases hm : a.person ∈ acc.map Prod.fst
        · rw [if_pos hm] at h
          exact Or.inl h
        · rw [if_neg hm] at h
          rcases List.mem_append.mp h with h1 | h1
          · exact Or.inl h1
          · simp only [List.mem_singleton] at h1
            exact Or.inr ⟨a, by simp, h1.symm⟩
      · obtain ⟨i, hi, hp⟩ := h
        exact Or.inr ⟨i, by simp [hi], hp⟩
    · rintro (h | ⟨i, hi, hp⟩)
      · left
        by_cases hm : a.person ∈ acc.map Prod.fst
        · rw [if_pos hm]; exact h
        · rw [if_neg hm]; exact List.mem_append.mpr (Or.inl h)
      · rcases List.mem_cons.mp hi with h1 | h1
        · subst h1
          left
          by_cases hm : i.person ∈ acc.map Prod.fst
          · rw [if_pos hm]; rw [← hp]; exact hm
          · rw [if_neg hm]
            exact List.mem_append.mpr (Or.inr (by simp [hp]))
        · exact Or.inr ⟨i, h1, hp⟩

theorem mem_keys_images_by_person (images : List ImageFile) (p : String) :
    p ∈ (images_by_person images).map Prod.fst ↔
      ∃ i ∈ images, i.person = p := by
  unfold images_by_person
  rw [mem_keys_foldl]
  simp

theorem keys_nodup_addToGroup (acc : List (String × List ImageFile))
    (img : ImageFile) (h : (acc.map Prod.fst).Nodup) :
    ((addToGroup acc img).map Prod.fst).Nodup := by
  rw [keys_addToGroup]
  by_cases hm : img.person ∈ acc.map Prod.fst
  · rw [if_pos hm]; exact h
  · rw [if_neg hm]
    rw [List.nodup_append]
    refine ⟨h, List.nodup_singleton _, ?_⟩
    intro a ha hb
    rw [List.mem_singleton] at hb
    subst hb
    exact hm ha

theorem keys_nodup_foldl (l : List ImageFile)
    (acc : List (String × List ImageFile))
    (h : (acc.map Prod.fst).Nodup) :
    ((l.foldl addToGroup acc).map Prod.fst).Nodup := by
  induction l generalizing acc with
  | nil => exact h
  | cons a as ih =>
    simp only [List.foldl_cons]
    exact ih (addToGroup acc a) (keys_nodup_addToGroup acc a h)

theorem keys_nodup_images_by_person (images : List ImageFile) :
    ((images_by_person images).map Prod.fst).Nodup :=
  keys_nodup_foldl images [] (by simp)

theorem lookup_of_mem_entries (groups : List (String × List ImageFile))
    (hnd : (groups.map Prod.fst).Nodup) (k : String) (v : List ImageFile)
    (h : (k, v) ∈ groups) : lookupGroup groups k = v := by
  induction groups with
  | nil => cases h
  | cons kv rest ih =>
    obtain ⟨k0, v0⟩ := kv
    simp only [List.map_cons, List.nodup_cons] at hnd
    rcases List.mem_cons.mp h with h1 | h1
    · have hk : k0 = k := (congrArg Prod.fst h1).symm
      have hv : v0 = v := (congrArg Prod.snd h1).symm
      unfold lookupGroup
      simp [hk, hv]
    · have hk0 : k0 ≠ k := by
        intro hc
        subst hc
        exact hnd.1 (by
          have : k0 ∈ rest.map Prod.fst :=
            List.mem_map.mpr ⟨(k0, v), h1, rfl⟩
          exact this)
      unfold lookupGroup
      rw [if_neg hk0]
      exact ih hnd.2 h1

theorem entry_of_mem_keys (groups : List (String × List ImageFile))
    (k : String) (h : k ∈ groups.map Prod.fst) :
    (k, lookupGroup groups k) ∈ groups := by
  induction groups with
  | nil => cases h
  | cons kv rest ih =>
    obtain ⟨k0, v0⟩ := kv
    rcases List.mem_cons.mp h with h1 | h1
    · subst h1
      unfold lookupGroup
      simp
    · by_cases hk : k0 = k
      · subst hk
        unfold lookupGroup
        simp
      · unfold lookupGroup
        rw [if_neg hk]
        exact List.mem_cons_of_mem _ (ih h1)

/-! ## Lemmas about the sampling loops -/

theorem rchoice_ok_inv {α : Type} (f : Nat → Nat) (idx : Nat)
    (l : List α) (x : α) (idx2 : Nat)
    (h : rchoice f idx l = .ok (x, idx2)) :
    x ∈ l ∧ idx2 = idx + 1 := by
  cases l with
  | nil => cases h
  | cons a as =>
    unfold rchoice at h
    injection h with h2
    refine ⟨?_, (congrArg Prod.snd h2).symm⟩
    have hx : (a :: as).get ⟨f idx % (as.length + 1),
        Nat.mod_lt _ (Nat.succ_pos _)⟩ = x := congrArg Prod.fst h2
    rw [← hx]
    exact (a :: as).get_mem _ _

theorem rchoice_error_inv {α : Type} (f : Nat → Nat) (idx : Nat)
    (l : List α) (e : SampErr)
    (h : rchoice f idx l = .error e) : l = [] ∧ e = .emptyChoice := by
  cases l with
  | nil =>
    unfold rchoice at h
    injection h with h2
    exact ⟨rfl, h2.symm⟩
  | cons a as => cases h

theorem rchoice_ne_nil {α : Type} (f : Nat → Nat) (idx : Nat)
    (l : List α) (h : l ≠ []) :
    rchoice f idx l ≠ .error .emptyChoice := by
  intro hc
  exact h (rchoice_error_inv f idx l _ hc).1

theorem rchoice_pick {α : Type} (f : Nat → Nat) (idx : Nat)
    (l : List α) (j : Nat) (hj : j < l.length) (hf : f idx = j) :
    rchoice f idx l = .ok (l.get ⟨j, hj⟩, idx + 1) := by
  cases l with
  | nil => cases hj
  | cons a as =>
    have hmod : f idx % (as.length + 1) = j := by
      rw [hf]; exact Nat.mod_eq_of_lt hj
    show Except.ok ((a :: as).get ⟨f idx % (as.length + 1),
      Nat.mod_lt _ (Nat.succ_pos _)⟩, idx + 1) =
      Except.ok ((a :: as).get ⟨j, hj⟩, idx + 1)
    have hfin : (⟨f idx % (as.length + 1),
        Nat.mod_lt _ (Nat.succ_pos _)⟩ : Fin (as.length + 1)) =
        ⟨j, hj⟩ := Fin.ext hmod
    rw [hfin]

theorem posLoop_ok_spec (f : Nat → Nat) (n2 : List String)
    (groups : List (String × List ImageFile)) (psi io : Bool)
    (quota : Nat) :
    ∀ fuel nb_added pairs added idx nb2 pairs2 added2 idx2,
    posLoop f n2 groups psi io quota fuel nb_added pairs added idx =
      .ok (nb2, pairs2, added2, idx2) →
    nb_added ≤ quota →
    nb2 = quota ∧ idx ≤ idx2 ∧
    (∃ newPairs, pairs2 = pairs ++ newPairs ∧
      newPairs.length = quota - nb_added ∧
      ∀ p ∈ newPairs, PosDrawn n2 groups psi p) ∧
    ((∀ k ∈ added, k ∈ added2) ∧
      added2.length = added.length + (quota - nb_added) ∧
      (∀ k ∈ added2, k ∈ added ∨
        ∃ p, PosDrawn n2 groups psi p ∧ k = p.get_key io)) ∧
    (added.Nodup → added2.Nodup) ∧
    (((pairs.map (fun p => p.get_key io)).Nodup ∧
        ∀ p ∈ pairs, p.get_key io ∈ added) →
      ((pairs2.map (fun p => p.get_key io)).Nodup ∧
        ∀ p ∈ pairs2, p.get_key io ∈ added2)) := by
  intro fuel
  induction fuel with
  | zero =>
    intro nb_added pairs added idx nb2 pairs2 added2 idx2 h hle
    by_cases hlt : nb_added < quota
    · unfold posLoop at h
      rw [if_pos hlt] at h
      cases h
    · unfold posLoop at h
      rw [if_neg hlt] at h
      injection h with h2
      obtain ⟨h3, h4, h5, h6⟩ : nb_added = nb2 ∧ pairs = pairs2 ∧
          added = added2 ∧ idx = idx2 :=
        ⟨congrArg (fun t => t.1) h2, congrArg (fun t => t.2.1) h2,
          congrArg (fun t => t.2.2.1) h2, congrArg (fun t => t.2.2.2) h2⟩
      subst h3
      subst h4
      subst h5
      subst h6
      have hq : nb_added = quota := Nat.le_antisymm hle (Nat.le_of_not_lt hlt)
      subst hq
      refine ⟨rfl, Nat.le_refl _, ⟨[], by simp, by simp, by simp⟩,
        ⟨fun k hk => hk, by simp, fun k hk => Or.inl hk⟩,
        fun hnd => hnd, fun hp => hp⟩
  | succ fuel ih =>
    intro nb_added pairs added idx nb2 pairs2 added2 idx2 h hle
    by_cases hlt : nb_added < quota
    · unfold posLoop at h
      rw [if_pos hlt] at h
      cases hc1 : rchoice f idx n2 with
      | error e => rw [hc1] at h; cases h
      | ok v1 =>
        obtain ⟨person, idxA⟩ := v1
        rw [hc1] at h
        dsimp only at h
        obtain ⟨hpmem, rfl⟩ := rchoice_ok_inv f idx n2 person idxA hc1
        cases hc2 : rchoice f (idx + 1) (lookupGroup groups person) with
        | error e => rw [hc2] at h; cases h
        | ok v2 =>
          obtain ⟨image1, idxB⟩ := v2
          rw [hc2] at h
          dsimp only at h
          obtain ⟨hi1mem, rfl⟩ :=
            rchoice_ok_inv f (idx + 1) _ image1 idxB hc2
          cases hc3 : rchoice f (idx + 1 + 1)
              (if psi then lookupGroup groups person
               else (lookupGroup groups person).filter
                 (fun image => image ≠ image1)) with
          | error e => rw [hc3] at h; cases h
          | ok v3 =>
            obtain ⟨image2, idxC⟩ := v3
            rw [hc3] at h
            dsimp only at h
            obtain ⟨hi2mem, rfl⟩ :=
              rchoice_ok_inv f (idx + 1 + 1) _ image2 idxC hc3
            have hdrawn : PosDrawn n2 groups psi
                (mkImagePair image1 image2) :=
              ⟨person, hpmem, image1, hi1mem, image2, hi2mem, rfl⟩
            by_cases hck : added.contains
                ((mkImagePair image1 image2).get_key io)
            · rw [if_pos hck] at h
              have hrec := ih _ _ _ _ _ _ _ _ h hle
              obtain ⟨h1, h2, h3, h4, h5, h6⟩ := hrec
              exact ⟨h1, by omega, h3, h4, h5, h6⟩
            · rw [if_neg hck] at h
              have hknotin :
                  (mkImagePair image1 image2).get_key io ∉ added := by
                intro hc
                exact hck (List.elem_eq_true_of_mem hc)
              have hrec := ih _ _ _ _ _ _ _ _ h hlt
              obtain ⟨h1, h2, ⟨newPairs, hnp1, hnp2, hnp3⟩,
                ⟨ha1, ha2, ha3⟩, h5, h6⟩ := hrec
              refine ⟨h1, by omega, ?_, ?_, ?_, ?_⟩
              · refine ⟨mkImagePair image1 image2 :: newPairs, ?_, ?_, ?_⟩
                · rw [hnp1, List.append_assoc]
                  rfl
                · simp only [List.length_cons, hnp2]
                  omega
                · intro p hp
                  rcases List.mem_cons.mp hp with h | h
                  · rw [h]; exact hdrawn
                  · exact hnp3 p h
              · refine ⟨?_, ?_, ?_⟩
                · intro k hk
                  exact ha1 k (List.mem_cons_of_mem _ hk)
                · simp only [List.length_cons] at ha2
                  omega
                · intro k hk
                  rcases ha3 k hk with h | h
                  · rcases List.mem_cons.mp h with h7 | h7
                    · exact Or.inr ⟨mkImagePair image1 image2, hdrawn, h7⟩
                    · exact Or.inl h7
                  · exact Or.inr h
              · intro hnd
                exact h5 (List.nodup_cons.mpr ⟨hknotin, hnd⟩)
              · intro ⟨hpk1, hpk2⟩
                refine h6 ⟨?_, ?_⟩
                · rw [List.map_append]
                  rw [List.nodup_append]
                  refine ⟨hpk1, by simp, ?_⟩
                  intro a ha hb
                  simp only [List.map_cons, List.map_nil,
                    List.mem_singleton] at hb
                  subst hb
                  obtain ⟨p, hp, hpa⟩ := List.mem_map.mp ha
                  exact hknotin (hpa ▸ hpk2 p hp)
                · intro p hp
                  rcases List.mem_append.mp hp with h | h
                  · exact List.mem_cons_of_mem _ (hpk2 p h)
                  · simp only [List.mem_singleton] at h
                    subst h
                    exact List.mem_cons_self _ _
    · unfold posLoop at h
      rw [if_neg hlt] at h
      injection h with h2
      obtain ⟨h3, h4, h5, h6⟩ : nb_added = nb2 ∧ pairs = pairs2 ∧
          added = added2 ∧ idx = idx2 :=
        ⟨congrArg (fun t => t.1) h2, congrArg (fun t => t.2.1) h2,
          congrArg (fun t => t.2.2.1) h2, congrArg (fun t => t.2.2.2) h2⟩
      subst h3
      subst h4
      subst h5
      subst h6
      have hq : nb_added = quota := Nat.le_antisymm hle (Nat.le_of_not_lt hlt)
      subst hq
      refine ⟨rfl, Nat.le_refl _, ⟨[], by simp, by simp, by simp⟩,
        ⟨fun k hk => hk, by simp, fun k hk => Or.inl hk⟩,
        fun hnd => hnd, fun hp => hp⟩

theorem negLoop_ok_spec (f : Nat → Nat) (names : List String)
    (groups : List (String × List ImageFile)) (io : Bool)
    (nb_max : Nat) :
    ∀ fuel nb_added pairs added idx nb2 pairs2 added2 idx2,
    negLoop f names groups io nb_max fuel nb_added pairs added idx =
      .ok (nb2, pairs2, added2, idx2) →
    nb_added ≤ nb_max →
    nb2 = nb_max ∧ idx ≤ idx2 ∧
    (∃ newPairs, pairs2 = pairs ++ newPairs ∧
      newPairs.length = nb_max - nb_added ∧
      ∀ p ∈ newPairs, NegDrawn names groups p) ∧
    ((∀ k ∈ added, k ∈ added2) ∧
      added2.length = added.length + (nb_max - nb_added) ∧
      (∀ k ∈ added2, k ∈ added ∨
        ∃ p, NegDrawn names groups p ∧ k = p.get_key io)) ∧
    (added.Nodup → added2.Nodup) ∧
    (((pairs.map (fun p => p.get_key io)).Nodup ∧
        ∀ p ∈ pairs, p.get_key io ∈ added) →
      ((pairs2.map (fun p => p.get_key io)).Nodup ∧
        ∀ p ∈ pairs2, p.get_key io ∈ added2)) := by
  intro fuel
  induction fuel with
  | zero =>
    intro nb_added pairs added idx nb2 pairs2 added2 idx2 h hle
    by_cases hlt : nb_added < nb_max
    · unfold negLoop at h
      rw [if_pos hlt] at h
      cases h
    · unfold negLoop at h
      rw [if_neg hlt] at h
      injection h with h2
      obtain ⟨h3, h4, h5, h6⟩ : nb_added = nb2 ∧ pairs = pairs2 ∧
          added = added2 ∧ idx = idx2 :=
        ⟨congrArg (fun t => t.1) h2, congrArg (fun t => t.2.1) h2,
          congrArg (fun t => t.2.2.1) h2, congrArg (fun t => t.2.2.2) h2⟩
      subst h3
      subst h4
      subst h5
      subst h6
      have hq : nb_added = nb_max := Nat.le_antisymm hle (Nat.le_of_not_lt hlt)
      subst hq
      refine ⟨rfl, Nat.le_refl _, ⟨[], by simp, by simp, by simp⟩,
        ⟨fun k hk => hk, by simp, fun k hk => Or.inl hk⟩,
        fun hnd => hnd, fun hp => hp⟩
  | succ fuel ih =>
    intro nb_added pairs added idx nb2 pairs2 added2 idx2 h hle
    by_cases hlt : nb_added < nb_max
    · unfold negLoop at h
      rw [if_pos hlt] at h
      cases hc1 : rchoice f idx names with
      | error e => rw [hc1] at h; cases h
      | ok v1 =>
        obtain ⟨person1, idxA⟩ := v1
        rw [hc1] at h
        dsimp only at h
        obtain ⟨hp1mem, rfl⟩ := rchoice_ok_inv f idx names person1 idxA hc1
        cases hc2 : rchoice f (idx + 1)
            (names.filter (fun person => person ≠ person1)) with
        | error e => rw [hc2] at h; cases h
        | ok v2 =>
          obtain ⟨person2, idxB⟩ := v2
          rw [hc2] at h
          dsimp only at h
          obtain ⟨hp2mem, rfl⟩ :=
            rchoice_ok_inv f (idx + 1) _ person2 idxB hc2
          cases hc3 : rchoice f (idx + 1 + 1)
              (lookupGroup groups person1) with
          | error e => rw [hc3] at h; cases h
          | ok v3 =>
            obtain ⟨image1, idxC⟩ := v3
            rw [hc3] at h
            dsimp only at h
            obtain ⟨hi1mem, rfl⟩ :=
              rchoice_ok_inv f (idx + 1 + 1) _ image1 idxC hc3
            cases hc4 : rchoice f (idx + 1 + 1 + 1)
                (lookupGroup groups person2) with
            | error e => rw [hc4] at h; cases h
            | ok v4 =>
              obtain ⟨image2, idxD⟩ := v4
              rw [hc4] at h
              dsimp only at h
              obtain ⟨hi2mem, rfl⟩ :=
                rchoice_ok_inv f (idx + 1 + 1 + 1) _ image2 idxD hc4
              have hdrawn : NegDrawn names groups
                  (mkImagePair image1 image2) :=
                ⟨person1, hp1mem, person2, hp2mem, image1, hi1mem,
                  image2, hi2mem, rfl⟩
              by_cases hck : added.contains
                  ((mkImagePair image1 image2).get_key io)
              · rw [if_pos hck] at h
                have hrec := ih _ _ _ _ _ _ _ _ h hle
                obtain ⟨h1, h2, h3, h4, h5, h6⟩ := hrec
                exact ⟨h1, by omega, h3, h4, h5, h6⟩
              · rw [if_neg hck] at h
                have hknotin :
                    (mkImagePair image1 image2).get_key io ∉ added := by
                  intro hc
                  exact hck (List.elem_eq_true_of_mem hc)
                have hrec := ih _ _ _ _ _ _ _ _ h hlt
                obtain ⟨h1, h2, ⟨newPairs, hnp1, hnp2, hnp3⟩,
                  ⟨ha1, ha2, ha3⟩, h5, h6⟩ := hrec
                refine ⟨h1, by omega, ?_, ?_, ?_, ?_⟩
                · refine ⟨mkImagePair image1 image2 :: newPairs, ?_, ?_, ?_⟩
                  · rw [hnp1, List.append_assoc]
                    rfl
                  · simp only [List.length_cons, hnp2]
                    omega
                  · intro p hp
                    rcases List.mem_cons.mp hp with h | h
                    · rw [h]; exact hdrawn
                    · exact hnp3 p h
                · refine ⟨?_, ?_, ?_⟩
                  · intro k hk
                    exact ha1 k (List.mem_cons_of_mem _ hk)
                  · simp only [List.length_cons] at ha2
                    omega
                  · intro k hk
                    rcases ha3 k hk with h | h
                    · rcases List.mem_cons.mp h with h7 | h7
                      · exact Or.inr ⟨mkImagePair image1 image2,
                          hdrawn, h7⟩
                      · exact Or.inl h7
                    · exact Or.inr h
                · intro hnd
                  exact h5 (List.nodup_cons.mpr ⟨hknotin, hnd⟩)
                · intro ⟨hpk1, hpk2⟩
                  refine h6 ⟨?_, ?_⟩
                  · rw [List.map_append]
                    rw [List.nodup_append]
                    refine ⟨hpk1, by simp, ?_⟩
                    intro a ha hb
                    simp only [List.map_cons, List.map_nil,
                      List.mem_singleton] at hb
                    subst hb
                    obtain ⟨p, hp, hpa⟩ := List.mem_map.mp ha
                    exact hknotin (hpa ▸ hpk2 p hp)
                  · intro p hp
                    rcases List.mem_append.mp hp with h | h
                    · exact List.mem_cons_of_mem _ (hpk2 p h)
                    · simp only [List.mem_singleton] at h
                      subst h
                      exact List.mem_cons_self _ _
    · unfold negLoop at h
      rw [if_neg hlt] at h
      injection h with h2
      obtain ⟨h3, h4, h5, h6⟩ : nb_added = nb2 ∧ pairs = pairs2 ∧
          added = added2 ∧ idx = idx2 :=
        ⟨congrArg (fun t => t.1) h2, congrArg (fun t => t.2.1) h2,
          congrArg (fun t => t.2.2.1) h2, congrArg (fun t => t.2.2.2) h2⟩
      subst h3
      subst h4
      subst h5
      subst h6
      have hq : nb_added = nb_max := Nat.le_antisymm hle (Nat.le_of_not_lt hlt)
      subst hq
      refine ⟨rfl, Nat.le_refl _, ⟨[], by simp, by simp, by simp⟩,
        ⟨fun k hk => hk, by simp, fun k hk => Or.inl hk⟩,
        fun hnd => hnd, fun hp => hp⟩

/-! ## Shuffle lemmas -/

theorem cons_eraseIdx_perm : ∀ (l : List ImagePair) (j : Nat)
    (hj : j < l.length),
    List.Perm (l.get ⟨j, hj⟩ :: l.eraseIdx j) l := by
  intro l
  induction l with
  | nil => intro j hj; cases hj
  | cons a as ih =>
    intro j hj
    cases j with
    | zero => simp [List.eraseIdx]
    | succ j =>
      have hj2 : j < as.length := Nat.lt_of_succ_lt_succ hj
      have hperm := ih j hj2
      refine List.Perm.trans ?_ (hperm.cons a)
      simp only [List.get_cons_succ, List.eraseIdx_cons_succ]
      exact List.Perm.swap a _ _

theorem shuffleGo_perm (f : Nat → Nat) : ∀ fuel (l : List ImagePair)
    (idx : Nat), List.Perm (shuffleGo f fuel l idx).1 l := by
  intro fuel
  induction fuel with
  | zero =>
    intro l idx
    cases l with
    | nil => exact List.Perm.refl _
    | cons a as =>
      cases as with
      | nil => exact List.Perm.refl _
      | cons b rest => exact List.Perm.refl _
  | succ fuel ih =>
    intro l idx
    cases l with
    | nil => exact List.Perm.refl _
    | cons a as =>
      cases as with
      | nil => exact List.Perm.refl _
      | cons b rest =>
        have hstep : (shuffleGo f (fuel + 1) (a :: b :: rest) idx).1 =
            (a :: b :: rest).get ⟨f idx % (a :: b :: rest).length,
              Nat.mod_lt _ (Nat.succ_pos _)⟩ ::
            (shuffleGo f fuel
              ((a :: b :: rest).eraseIdx (f idx % (a :: b :: rest).length))
              (idx + 1)).1 := rfl
        rw [hstep]
        exact ((ih _ (idx + 1)).cons _).trans
          (cons_eraseIdx_perm (a :: b :: rest) _ _)

theorem shuffleGo_idx_le (f : Nat → Nat) : ∀ fuel (l : List ImagePair)
    (idx : Nat), idx ≤ (shuffleGo f fuel l idx).2 := by
  intro fuel
  induction fuel with
  | zero =>
    intro l idx
    cases l with
    | nil => exact Nat.le_refl _
    | cons a as =>
      cases as with
      | nil => exact Nat.le_refl _
      | cons b rest => exact Nat.le_refl _
  | succ fuel ih =>
    intro l idx
    cases l with
    | nil => exact Nat.le_refl _
    | cons a as =>
      cases as with
      | nil => exact Nat.le_refl _
      | cons b rest =>
        have hstep : (shuffleGo f (fuel + 1) (a :: b :: rest) idx).2 =
            (shuffleGo f fuel
              ((a :: b :: rest).eraseIdx (f idx % (a :: b :: rest).length))
              (idx + 1)).2 := rfl
        rw [hstep]
        exact Nat.le_trans (Nat.le_succ idx) (ih _ (idx + 1))

theorem pyShuffle_perm (f : Nat → Nat) (l : List ImagePair) (idx : Nat) :
    List.Perm (pyShuffle f l idx).1 l :=
  shuffleGo_perm f l.length l idx

theorem pyShuffle_idx_le (f : Nat → Nat) (l : List ImagePair) (idx : Nat) :
    idx ≤ (pyShuffle f l idx).2 :=
  shuffleGo_idx_le f l.length l idx

/-! ## Drawn pairs and their person labels -/

theorem mem_lookup_groupsOf (walk : List (String × String))
    (exclude_images : List ImagePair) (k : String) (i : ImageFile)
    (h : i ∈ lookupGroup (groupsOf walk exclude_images) k) :
    i ∈ sampledImages walk exclude_images ∧ i.person = k := by
  unfold groupsOf at h
  rw [lookupGroup_images_by_person] at h
  have h2 := List.mem_filter.mp h
  exact ⟨h2.1, by simpa using h2.2⟩

theorem posDrawn_same_person (walk : List (String × String))
    (exclude_images : List ImagePair) (psi : Bool) (p : ImagePair)
    (h : PosDrawn (namesGte2Of walk exclude_images)
      (groupsOf walk exclude_images) psi p) :
    p.same_person = true ∧
      p.image1 ∈ sampledImages walk exclude_images ∧
      p.image2 ∈ sampledImages walk exclude_images := by
  obtain ⟨person, hp, image1, h1, image2, h2, rfl⟩ := h
  have e1 := mem_lookup_groupsOf walk exclude_images person image1 h1
  have h2b : image2 ∈ lookupGroup (groupsOf walk exclude_images) person := by
    by_cases hpsi : psi
    · rw [if_pos hpsi] at h2; exact h2
    · rw [if_neg hpsi] at h2; exact List.mem_of_mem_filter h2
  have e2 := mem_lookup_groupsOf walk exclude_images person image2 h2b
  refine ⟨?_, e1.1, e2.1⟩
  simp only [mkImagePair]
  rw [e1.2, e2.2]
  simp

theorem negDrawn_diff_person (walk : List (String × String))
    (exclude_images : List ImagePair) (p : ImagePair)
    (h : NegDrawn (namesOf walk exclude_images)
      (groupsOf walk exclude_images) p) :
    p.same_person = false ∧
      p.image1 ∈ sampledImages walk exclude_images ∧
      p.image2 ∈ sampledImages walk exclude_images := by
  obtain ⟨person1, hp1, person2, hp2, image1, h1, image2, h2, rfl⟩ := h
  have hne : person2 ≠ person1 := by
    have := (List.mem_filter.mp hp2).2
    simpa using this
  have e1 := mem_lookup_groupsOf walk exclude_images person1 image1 h1
  have e2 := mem_lookup_groupsOf walk exclude_images person2 image2 h2
  refine ⟨?_, e1.1, e2.1⟩
  simp only [mkImagePair]
  rw [e1.2, e2.2]
  simp
  exact fun hc => hne hc.symm

/-! ## Core run facts -/

theorem get_image_pairs_core_ok_spec (walk : List (String × String))
    (is_dir : Bool) (nb_max : Nat) (psi io : Bool)
    (exclude_images : List ImagePair) (f : Nat → Nat) (idx0 fuel : Nat)
    (shuffled : List ImagePair) (idxEnd : Nat)
    (h : get_image_pairs_core walk is_dir nb_max psi io exclude_images
      f idx0 fuel = .ok (shuffled, idxEnd)) :
    shuffled.length = nb_max ∧
    shuffled.countP (fun p => p.same_person) = nb_max / 2 ∧
    shuffled.countP (fun p => !p.same_person) = nb_max - nb_max / 2 ∧
    (shuffled.map (fun p => p.get_key io)).Nodup ∧
    idx0 ≤ idxEnd ∧ is_dir = true := by
  unfold get_image_pairs_core at h
  by_cases hd : is_dir = false
  · rw [if_pos hd] at h
    cases h
  · rw [if_neg hd] at h
    cases hp : posLoop f (namesGte2Of walk exclude_images)
        (groupsOf walk exclude_images) psi io (nb_max / 2) fuel
        0 [] [] idx0 with
    | error e => rw [hp] at h; cases h
    | ok v1 =>
      obtain ⟨nb1, pairs1, added1, idx1⟩ := v1
      rw [hp] at h
      dsimp only at h
      have hps := posLoop_ok_spec f _ _ psi io (nb_max / 2) fuel
        0 [] [] idx0 nb1 pairs1 added1 idx1 hp (Nat.zero_le _)
      obtain ⟨hq1, hmono1, ⟨posNew, hpn1, hpn2, hpn3⟩, hadd1, hnd1, hkey1⟩ :=
        hps
      cases hn : negLoop f (namesOf walk exclude_images)
          (groupsOf walk exclude_images) io nb_max fuel
          nb1 pairs1 added1 idx1 with
      | error e => rw [hn] at h; cases h
      | ok v2 =>
        obtain ⟨nb2, pairs2, added2, idx2⟩ := v2
        rw [hn] at h
        dsimp only at h
        have hle1 : nb1 ≤ nb_max := by
          rw [hq1]; exact Nat.div_le_self _ _
        have hns := negLoop_ok_spec f _ _ io nb_max fuel
          nb1 pairs1 added1 idx1 nb2 pairs2 added2 idx2 hn hle1
        obtain ⟨hq2, hmono2, ⟨negNew, hnn1, hnn2, hnn3⟩, hadd2, hnd2, hkey2⟩ :=
          hns
        injection h with h2
        have hsh : shuffled = (pyShuffle f pairs2 idx2).1 :=
          (congrArg Prod.fst h2).symm
        have hidxe : idxEnd = (pyShuffle f pairs2 idx2).2 :=
          (congrArg Prod.snd h2).symm
        have hperm := pyShuffle_perm f pairs2 idx2
        have hpairs1len : pairs1.length = nb_max / 2 := by
          rw [hpn1]
          simp [hpn2]
        have hpos_same : ∀ p ∈ pairs1, p.same_person = true := by
          intro p hpmem
          rw [hpn1] at hpmem
          simp only [List.nil_append] at hpmem
          exact (posDrawn_same_person walk exclude_images psi p
            (hpn3 p hpmem)).1
        have hneg_diff : ∀ p ∈ negNew, p.same_person = false := by
          intro p hpmem
          exact (negDrawn_diff_person walk exclude_images p
            (hnn3 p hpmem)).1
        have hlen2 : pairs2.length = nb_max := by
          rw [hnn1, List.length_append, hpairs1len, hnn2, hq1]
          omega
        have hcount2 : pairs2.countP (fun p => p.same_person) =
            nb_max / 2 := by
          rw [hnn1, List.countP_append]
          have hc1 : pairs1.countP (fun p => p.same_person) =
              pairs1.length :=
            List.countP_eq_length.mpr (fun a ha => hpos_same a ha)
          have hc2 : negNew.countP (fun p => p.same_person) = 0 :=
            List.countP_eq_zero.mpr (fun a ha => by
              simp [hneg_diff a ha])
          rw [hc1, hc2, hpairs1len]
          omega
        have hcountn2 : pairs2.countP (fun p => !p.same_person) =
            nb_max - nb_max / 2 := by
          rw [hnn1, List.countP_append]
          have hc1 : pairs1.countP (fun p => !p.same_person) = 0 :=
            List.countP_eq_zero.mpr (fun a ha => by
              simp [hpos_same a ha])
          have hc2 : negNew.countP (fun p => !p.same_person) =
              negNew.length :=
            List.countP_eq_length.mpr (fun a ha => by
              simp [hneg_diff a ha])
          rw [hc1, hc2, hnn2, hq1]
          omega
        have hkeys2 : (pairs2.map (fun p => p.get_key io)).Nodup := by
          have := hkey2 (hkey1 ⟨by simp, by simp⟩)
          exact this.1
        refine ⟨?_, ?_, ?_, ?_, ?_, ?_⟩
        · rw [hsh, hperm.length_eq, hlen2]
        · rw [hsh, hperm.countP_eq, hcount2]
        · rw [hsh, hperm.countP_eq, hcountn2]
        · rw [hsh]
          have hmp := hperm.map (fun p => p.get_key io)
          exact (hmp.nodup_iff).mpr hkeys2
        · rw [hidxe]
          exact Nat.le_trans hmono1 (Nat.le_trans hmono2
            (pyShuffle_idx_le f pairs2 idx2))
        · exact Bool.eq_true_of_ne_false hd

theorem get_image_pairs_ok_core (walk : List (String × String))
    (is_dir : Bool) (nb_max : Nat) (psi io : Bool)
    (exclude_images : List ImagePair) (seed : Option Nat) (fuel : Nat)
    (g0 : RandState) (ps : List ImagePair) (gOut : RandState)
    (h : get_image_pairs walk is_dir nb_max psi io exclude_images seed
      fuel g0 = .ok (ps, gOut)) :
    ∃ f0 idx0 idxEnd, get_image_pairs_core walk is_dir nb_max psi io
      exclude_images f0 idx0 fuel = .ok (ps, idxEnd) := by
  unfold get_image_pairs at h
  cases seed with
  | some s =>
    dsimp only at h
    cases hc : get_image_pairs_core walk is_dir nb_max psi io
        exclude_images (seededStream s) 0 fuel with
    | error e => rw [hc] at h; cases h
    | ok v =>
      obtain ⟨sh, idxE⟩ := v
      rw [hc] at h
      dsimp only at h
      injection h with h2
      have hps : sh = ps := congrArg Prod.fst h2
      exact ⟨seededStream s, 0, idxE, by rw [hc, hps]⟩
  | none =>
    dsimp only at h
    cases hc : get_image_pairs_core walk is_dir nb_max psi io
        exclude_images g0.f g0.idx fuel with
    | error e => rw [hc] at h; cases h
    | ok v =>
      obtain ⟨sh, idxE⟩ := v
      rw [hc] at h
      dsimp only at h
      injection h with h2
      have hps : sh = ps := congrArg Prod.fst h2
      exact ⟨g0.f, g0.idx, idxE, by rw [hc, hps]⟩

/-! ## C2: dedup keys of the returned list are pairwise distinct -/

/-- C2: in every successful sampling call no two returned pairs share a
dedup key; in particular with `ignore_order = true` the key is the
`"$$$"`-join of the two filepaths in sorted order, and no two returned
pairs have matching sorted keys. -/
theorem C2_no_duplicate_keys (walk : List (String × String))
    (is_dir : Bool) (nb_max : Nat) (psi io : Bool)
    (exclude_images : List ImagePair) (seed : Option Nat) (fuel : Nat)
    (g0 : RandState) (ps : List ImagePair) (gOut : RandState)
    (h : get_image_pairs walk is_dir nb_max psi io exclude_images seed
      fuel g0 = .ok (ps, gOut)) :
    (ps.map (fun p => p.get_key io)).Nodup ∧
    (io = true →
      (ps.map (fun p =>
        if strLe p.image1.filepath p.image2.filepath then
          p.image1.filepath ++ "$$$" ++ p.image2.filepath
        else
          p.image2.filepath ++ "$$$" ++ p.image1.filepath)).Nodup) := by
  obtain ⟨f0, idx0, idxEnd, hcore⟩ := get_image_pairs_ok_core walk is_dir
    nb_max psi io exclude_images seed fuel g0 ps gOut h
  have hspec := get_image_pairs_core_ok_spec walk is_dir nb_max psi io
    exclude_images f0 idx0 fuel ps idxEnd hcore
  refine ⟨hspec.2.2.2.1, ?_⟩
  rintro rfl
  exact hspec.2.2.2.1

/-- Witness for C2 at a concrete successful sampling call. -/
theorem C2_no_duplicate_keys_witness :
    get_image_pairs walkAB true 2 false true [] none 9 gZero =
      .ok ([mkImagePair fA1 fA2, mkImagePair fA1 fB1], ⟨gZero.f, 8⟩) ∧
    (([mkImagePair fA1 fA2, mkImagePair fA1 fB1].map
      (fun p => p.get_key true)).Nodup) := by
  have hrun : get_image_pairs walkAB true 2 false true [] none 9 gZero =
      .ok ([mkImagePair fA1 fA2, mkImagePair fA1 fB1], ⟨gZero.f, 8⟩) := by
    rfl
  exact ⟨hrun, (C2_no_duplicate_keys walkAB true 2 false true [] none 9
    gZero _ _ hrun).1⟩

/-! ## C10: a single requested pair is a different-person pair -/

/-- C10: with `nb_max = 1` the positive phase collects `1 / 2 = 0`
same-person pairs, so a successful call returns exactly one pair and it
is a different-person pair. -/
theorem C10_single_pair (walk : List (String × String)) (is_dir : Bool)
    (psi io : Bool) (exclude_images : List ImagePair) (seed : Option Nat)
    (fuel : Nat) (g0 : RandState) (ps : List ImagePair) (gOut : RandState)
    (h : get_image_pairs walk is_dir 1 psi io exclude_images seed
      fuel g0 = .ok (ps, gOut)) :
    ps.length = 1 ∧ ∀ p ∈ ps, p.same_person = false := by
  obtain ⟨f0, idx0, idxEnd, hcore⟩ := get_image_pairs_ok_core walk is_dir
    1 psi io exclude_images seed fuel g0 ps gOut h
  have hspec := get_image_pairs_core_ok_spec walk is_dir 1 psi io
    exclude_images f0 idx0 fuel ps idxEnd hcore
  refine ⟨hspec.1, ?_⟩
  intro p hp
  have hcount : ps.countP (fun p => p.same_person) = 0 := hspec.2.1
  have := List.countP_eq_zero.mp hcount p hp
  simpa using this

/-- Witness for C10 at a concrete successful sampling call. -/
theorem C10_single_pair_witness :
    get_image_pairs walkAB true 1 false true [] none 9 gZero =
      .ok ([mkImagePair fA1 fB1], ⟨gZero.f, 4⟩) ∧
    [mkImagePair fA1 fB1].length = 1 ∧
    ∀ p ∈ [mkImagePair fA1 fB1], p.same_person = false := by
  have hrun : get_image_pairs walkAB true 1 false true [] none 9 gZero =
      .ok ([mkImagePair fA1 fB1], ⟨gZero.f, 4⟩) := by
    rfl
  exact ⟨hrun, C10_single_pair walkAB true false true [] none 9
    gZero _ _ hrun⟩

/-! ## C4: seeding, determinism and global random state -/

theorem negLoop_idx_lt (f : Nat → Nat) (names : List String)
    (groups : List (String × List ImageFile)) (io : Bool)
    (nb_max fuel nb_added : Nat) (pairs : List ImagePair)
    (added : List String) (idx nb2 : Nat) (pairs2 : List ImagePair)
    (added2 : List String) (idx2 : Nat)
    (h : negLoop f names groups io nb_max fuel nb_added pairs added idx =
      .ok (nb2, pairs2, added2, idx2))
    (hlt : nb_added < nb_max) : idx < idx2 := by
  cases fuel with
  | zero =>
    unfold negLoop at h
    rw [if_pos hlt] at h
    cases h
  | succ fuel =>
    unfold negLoop at h
    rw [if_pos hlt] at h
    cases hc1 : rchoice f idx names with
    | error e => rw [hc1] at h; cases h
    | ok v1 =>
      obtain ⟨person1, idxA⟩ := v1
      rw [hc1] at h
      dsimp only at h
      obtain ⟨-, rfl⟩ := rchoice_ok_inv f idx names person1 idxA hc1
      cases hc2 : rchoice f (idx + 1)
          (names.filter (fun person => person ≠ person1)) with
      | error e => rw [hc2] at h; cases h
      | ok v2 =>
        obtain ⟨person2, idxB⟩ := v2
        rw [hc2] at h
        dsimp only at h
        obtain ⟨-, rfl⟩ := rchoice_ok_inv f (idx + 1) _ person2 idxB hc2
        cases hc3 : rchoice f (idx + 1 + 1)
            (lookupGroup groups person1) with
        | error e => rw [hc3] at h; cases h
        | ok v3 =>
          obtain ⟨image1, idxC⟩ := v3
          rw [hc3] at h
          dsimp only at h
          obtain ⟨-, rfl⟩ := rchoice_ok_inv f (idx + 1 + 1) _ image1 idxC hc3
          cases hc4 : rchoice f (idx + 1 + 1 + 1)
              (lookupGroup groups person2) with
          | error e => rw [hc4] at h; cases h
          | ok v4 =>
            obtain ⟨image2, idxD⟩ := v4
            rw [hc4] at h
            dsimp only at h
            obtain ⟨-, rfl⟩ :=
              rchoice_ok_inv f (idx + 1 + 1 + 1) _ image2 idxD hc4
            by_cases hck : added.contains
                ((mkImagePair image1 image2).get_key io)
            · rw [if_pos hck] at h
              have := (negLoop_ok_spec f names groups io nb_max fuel
                nb_added pairs added _ nb2 pairs2 added2 idx2 h
                (Nat.le_of_lt hlt)).2.1
              omega
            · rw [if_neg hck] at h
              have := (negLoop_ok_spec f names groups io nb_max fuel
                (nb_added + 1) _ _ _ nb2 pairs2 added2 idx2 h hlt).2.1
              omega

theorem get_image_pairs_core_idx_lt (walk : List (String × String))
    (is_dir : Bool) (nb_max : Nat) (psi io : Bool)
    (exclude_images : List ImagePair) (f : Nat → Nat) (idx0 fuel : Nat)
    (shuffled : List ImagePair) (idxEnd : Nat)
    (h : get_image_pairs_core walk is_dir nb_max psi io exclude_images
      f idx0 fuel = .ok (shuffled, idxEnd))
    (hnb : 1 ≤ nb_max) : idx0 < idxEnd := by
  unfold get_image_pairs_core at h
  by_cases hd : is_dir = false
  · rw [if_pos hd] at h; cases h
  · rw [if_neg hd] at h
    cases hp : posLoop f (namesGte2Of walk exclude_images)
        (groupsOf walk exclude_images) psi io (nb_max / 2) fuel
        0 [] [] idx0 with
    | error e => rw [hp] at h; cases h
    | ok v1 =>
      obtain ⟨nb1, pairs1, added1, idx1⟩ := v1
      rw [hp] at h
      dsimp only at h
      have hps := posLoop_ok_spec f _ _ psi io (nb_max / 2) fuel
        0 [] [] idx0 nb1 pairs1 added1 idx1 hp (Nat.zero_le _)
      have hmono1 : idx0 ≤ idx1 := hps.2.1
      have hq1 : nb1 = nb_max / 2 := hps.1
      cases hn : negLoop f (namesOf walk exclude_images)
          (groupsOf walk exclude_images) io nb_max fuel
          nb1 pairs1 added1 idx1 with
      | error e => rw [hn] at h; cases h
      | ok v2 =>
        obtain ⟨nb2, pairs2, added2, idx2⟩ := v2
        rw [hn] at h
        dsimp only at h
        have hlt1 : nb1 < nb_max := by
          rw [hq1]
          exact Nat.div_lt_self (by omega) (by omega)
        have hstrict := negLoop_idx_lt f _ _ io nb_max fuel
          nb1 pairs1 added1 idx1 nb2 pairs2 added2 idx2 hn hlt1
        injection h with h2
        have hidxe : idxEnd = (pyShuffle f pairs2 idx2).2 :=
          (congrArg Prod.snd h2).symm
        have hsle := pyShuffle_idx_le f pairs2 idx2
        omega

/-- C4 counterexample: an unseeded call that consumes no randomness
(`nb_max = 0`) returns the global random state exactly as it received
it, so not every unseeded call leaves the global state mutated. -/
theorem C4_counterexample :
    get_image_pairs walkAB true 0 false true [] none 5 gZero =
      .ok ([], gZero) := by
  rfl

/-- C4 amended: two seeded calls with the same seed and identical inputs
return identical pair sequences whatever the incoming global state; a
successful seeded call returns the global state exactly as saved at
entry; and an unseeded call that draws (any successful call with
`nb_max ≥ 1`) leaves the global state mutated.  (The original claim that
every unseeded call mutates the state fails for `nb_max = 0`, see
`C4_counterexample`.) -/
theorem C4_seed_determinism (walk : List (String × String))
    (is_dir : Bool) (nb_max : Nat) (psi io : Bool)
    (exclude_images : List ImagePair) (s : Nat) (fuel : Nat) :
    (∀ g0 g0' ps gOut,
      get_image_pairs walk is_dir nb_max psi io exclude_images (some s)
        fuel g0 = .ok (ps, gOut) →
      get_image_pairs walk is_dir nb_max psi io exclude_images (some s)
        fuel g0' = .ok (ps, g0')) ∧
    (∀ g0 ps gOut,
      get_image_pairs walk is_dir nb_max psi io exclude_images (some s)
        fuel g0 = .ok (ps, gOut) → gOut = g0) ∧
    (∀ g0 ps gOut, 1 ≤ nb_max →
      get_image_pairs walk is_dir nb_max psi io exclude_images none
        fuel g0 = .ok (ps, gOut) → gOut ≠ g0) := by
  refine ⟨?_, ?_, ?_⟩
  · intro g0 g0' ps gOut h
    unfold get_image_pairs at h
    unfold get_image_pairs
    dsimp only at h
    dsimp only
    cases hc : get_image_pairs_core walk is_dir nb_max psi io
        exclude_images (seededStream s) 0 fuel with
    | error e =>
      try rw [hc] at h
      dsimp only at h
      cases h
    | ok v =>
      obtain ⟨sh, idxE⟩ := v
      try rw [hc] at h
      dsimp only at h
      dsimp only
      injection h with h2
      have hps : sh = ps := congrArg Prod.fst h2
      rw [hps]
  · intro g0 ps gOut h
    unfold get_image_pairs at h
    dsimp only at h
    cases hc : get_image_pairs_core walk is_dir nb_max psi io
        exclude_images (seededStream s) 0 fuel with
    | error e => rw [hc] at h; cases h
    | ok v =>
      obtain ⟨sh, idxE⟩ := v
      rw [hc] at h
      dsimp only at h
      injection h with h2
      exact (congrArg Prod.snd h2).symm
  · intro g0 ps gOut hnb h
    unfold get_image_pairs at h
    dsimp only at h
    cases hc : get_image_pairs_core walk is_dir nb_max psi io
        exclude_images g0.f g0.idx fuel with
    | error e => rw [hc] at h; cases h
    | ok v =>
      obtain ⟨sh, idxE⟩ := v
      rw [hc] at h
      dsimp only at h
      injection h with h2
      have hstrict := get_image_pairs_core_idx_lt walk is_dir nb_max psi
        io exclude_images g0.f g0.idx fuel sh idxE hc hnb
      have hgOut : gOut = ⟨g0.f, idxE⟩ := (congrArg Prod.snd h2).symm
      rw [hgOut]
      intro hcontra
      have : idxE = g0.idx := congrArg RandState.idx hcontra
      omega

/-- Witness for C4 at a concrete seeded call and a concrete mutating
unseeded call. -/
theorem C4_seed_determinism_witness :
    get_image_pairs walkAB true 1 false true [] (some 3) 9
      ⟨fun i => i, 7⟩ = .ok ([mkImagePair fA1 fB1], ⟨fun i => i, 7⟩) ∧
    (⟨gZero.f, 4⟩ : RandState) ≠ gZero := by
  constructor
  · have h0 : get_image_pairs walkAB true 1 false true [] (some 3) 9
        gZero = .ok ([mkImagePair fA1 fB1], gZero) := by rfl
    exact (C4_seed_determinism walkAB true 1 false true [] 3 9).1
      gZero ⟨fun i => i, 7⟩ [mkImagePair fA1 fB1] gZero h0
  · have hrun : get_image_pairs walkAB true 1 false true [] none 9
        gZero = .ok ([mkImagePair fA1 fB1], ⟨gZero.f, 4⟩) := by rfl
    exact (C4_seed_determinism walkAB true 1 false true [] 3 9).2.2
      gZero [mkImagePair fA1 fB1] ⟨gZero.f, 4⟩ (by omega) hrun

/-! ## C9: empty pools raise immediately; non-empty pools never raise -/

theorem rchoice_singleton {α : Type} (f : Nat → Nat) (idx : Nat) (x : α) :
    rchoice f idx [x] = .ok (x, idx + 1) := by
  show Except.ok (([x] : List α).get ⟨f idx % (List.length ([] : List α) + 1),
    Nat.mod_lt _ (Nat.succ_pos _)⟩, idx + 1) = Except.ok (x, idx + 1)
  have hfin : (⟨f idx % (List.length ([] : List α) + 1),
      Nat.mod_lt _ (Nat.succ_pos _)⟩ : Fin 1) = ⟨0, Nat.one_pos⟩ :=
    Fin.ext (by simp [Nat.mod_one])
  rw [hfin]
  rfl

theorem exists_ne_of_nodup_two_le {α : Type} (l : List α) (x : α)
    (hnd : l.Nodup) (hlen : 2 ≤ l.length) : ∃ y ∈ l, y ≠ x := by
  cases l with
  | nil => simp at hlen
  | cons a as =>
    cases as with
    | nil => simp at hlen
    | cons b t =>
      have hab : a ≠ b := by
        have := List.nodup_cons.mp hnd
        exact fun hc => this.1 (hc ▸ List.mem_cons_self b t)
      by_cases hax : a = x
      · refine ⟨b, by simp, ?_⟩
        intro hc
        exact hab (hax.trans hc.symm)
      · exact ⟨a, by simp, hax⟩

theorem filter_ne_ne_nil {α : Type} [DecidableEq α] (l : List α) (x : α)
    (hnd : l.Nodup) (hlen : 2 ≤ l.length) :
    l.filter (fun y => y ≠ x) ≠ [] := by
  obtain ⟨y, hy, hyx⟩ := exists_ne_of_nodup_two_le l x hnd hlen
  have : y ∈ l.filter (fun y => y ≠ x) :=
    List.mem_filter.mpr ⟨hy, by simpa using hyx⟩
  exact List.ne_nil_of_mem this

theorem posLoop_no_empty (f : Nat → Nat) (n2 : List String)
    (groups : List (String × List ImageFile)) (psi io : Bool)
    (quota : Nat) (hn2 : n2 ≠ [])
    (hlen : ∀ person ∈ n2, 2 ≤ (lookupGroup groups person).length)
    (hnd : ∀ person, (lookupGroup groups person).Nodup) :
    ∀ fuel nb_added pairs added idx,
    posLoop f n2 groups psi io quota fuel nb_added pairs added idx ≠
      .error .emptyChoice := by
  intro fuel
  induction fuel with
  | zero =>
    intro nb_added pairs added idx hcontra
    unfold posLoop at hcontra
    by_cases hlt : nb_added < quota
    · rw [if_pos hlt] at hcontra
      injection hcontra with h2
      cases h2
    · rw [if_neg hlt] at hcontra
      cases hcontra
  | succ fuel ih =>
    intro nb_added pairs added idx hcontra
    unfold posLoop at hcontra
    by_cases hlt : nb_added < quota
    · rw [if_pos hlt] at hcontra
      cases hc1 : rchoice f idx n2 with
      | error e =>
        exact hn2 (rchoice_error_inv f idx n2 e hc1).1
      | ok v1 =>
        obtain ⟨person, idxA⟩ := v1
        rw [hc1] at hcontra
        dsimp only at hcontra
        obtain ⟨hpmem, rfl⟩ := rchoice_ok_inv f idx n2 person idxA hc1
        have hlk : lookupGroup groups person ≠ [] := by
          intro hc
          have := hlen person hpmem
          rw [hc] at this
          simp at this
        cases hc2 : rchoice f (idx + 1) (lookupGroup groups person) with
        | error e =>
          exact hlk (rchoice_error_inv f (idx + 1) _ e hc2).1
        | ok v2 =>
          obtain ⟨image1, idxB⟩ := v2
          rw [hc2] at hcontra
          dsimp only at hcontra
          obtain ⟨hi1mem, rfl⟩ :=
            rchoice_ok_inv f (idx + 1) _ image1 idxB hc2
          have hthird : (if psi then lookupGroup groups person
              else (lookupGroup groups person).filter
                (fun image => image ≠ image1)) ≠ [] := by
            by_cases hpsi : psi
            · rw [if_pos hpsi]; exact hlk
            · rw [if_neg hpsi]
              exact filter_ne_ne_nil _ image1 (hnd person)
                (hlen person hpmem)
          cases hc3 : rchoice f (idx + 1 + 1)
              (if psi then lookupGroup groups person
               else (lookupGroup groups person).filter
                 (fun image => image ≠ image1)) with
          | error e =>
            exact hthird (rchoice_error_inv f (idx + 1 + 1) _ e hc3).1
          | ok v3 =>
            obtain ⟨image2, idxC⟩ := v3
            rw [hc3] at hcontra
            dsimp only at hcontra
            by_cases hck : added.contains
                ((mkImagePair image1 image2).get_key io)
            · rw [if_pos hck] at hcontra
              exact ih _ _ _ _ hcontra
            · rw [if_neg hck] at hcontra
              exact ih _ _ _ _ hcontra
    · rw [if_neg hlt] at hcontra
      cases hcontra

theorem negLoop_no_empty (f : Nat → Nat) (names : List String)
    (groups : List (String × List ImageFile)) (io : Bool)
    (nb_max : Nat) (hnd : names.Nodup) (hlen : 2 ≤ names.length)
    (hlk : ∀ person ∈ names, lookupGroup groups person ≠ []) :
    ∀ fuel nb_added pairs added idx,
    negLoop f names groups io nb_max fuel nb_added pairs added idx ≠
      .error .emptyChoice := by
  have hnames : names ≠ [] := by
    intro hc; rw [hc] at hlen; simp at hlen
  intro fuel
  induction fuel with
  | zero =>
    intro nb_added pairs added idx hcontra
    unfold negLoop at hcontra
    by_cases hlt : nb_added < nb_max
    · rw [if_pos hlt] at hcontra
      injection hcontra with h2
      cases h2
    · rw [if_neg hlt] at hcontra
      cases hcontra
  | succ fuel ih =>
    intro nb_added pairs added idx hcontra
    unfold negLoop at hcontra
    by_cases hlt : nb_added < nb_max
    · rw [if_pos hlt] at hcontra
      cases hc1 : rchoice f idx names with
      | error e =>
        exact hnames (rchoice_error_inv f idx names e hc1).1
      | ok v1 =>
        obtain ⟨person1, idxA⟩ := v1
        rw [hc1] at hcontra
        dsimp only at hcontra
        obtain ⟨hp1mem, rfl⟩ := rchoice_ok_inv f idx names person1 idxA hc1
        have hfil : names.filter (fun person => person ≠ person1) ≠ [] :=
          filter_ne_ne_nil names person1 hnd hlen
        cases hc2 : rchoice f (idx + 1)
            (names.filter (fun person => person ≠ person1)) with
        | error e =>
          exact hfil (rchoice_error_inv f (idx + 1) _ e hc2).1
        | ok v2 =>
          obtain ⟨person2, idxB⟩ := v2
          rw [hc2] at hcontra
          dsimp only at hcontra
          obtain ⟨hp2mem, rfl⟩ :=
            rchoice_ok_inv f (idx + 1) _ person2 idxB hc2
          have hp2names : person2 ∈ names :=
            List.mem_of_mem_filter hp2mem
          cases hc3 : rchoice f (idx + 1 + 1)
              (lookupGroup groups person1) with
          | error e =>
            exact hlk person1 hp1mem
              (rchoice_error_inv f (idx + 1 + 1) _ e hc3).1
          | ok v3 =>
            obtain ⟨image1, idxC⟩ := v3
            rw [hc3] at hcontra
            dsimp only at hcontra
            obtain ⟨-, rfl⟩ :=
              rchoice_ok_inv f (idx + 1 + 1) _ image1 idxC hc3
            cases hc4 : rchoice f (idx + 1 + 1 + 1)
                (lookupGroup groups person2) with
            | error e =>
              exact hlk person2 hp2names
                (rchoice_error_inv f (idx + 1 + 1 + 1) _ e hc4).1
            | ok v4 =>
              obtain ⟨image2, idxD⟩ := v4
              rw [hc4] at hcontra
              dsimp only at hcontra
              by_cases hck : added.contains
                  ((mkImagePair image1 image2).get_key io)
              · rw [if_pos hck] at hcontra
                exact ih _ _ _ _ hcontra
              · rw [if_neg hck] at hcontra
                exact ih _ _ _ _ hcontra
    · rw [if_neg hlt] at hcontra
      cases hcontra

theorem mem_namesGte2_lookup_len (walk : List (String × String))
    (exclude_images : List ImagePair) (person : String)
    (h : person ∈ namesGte2Of walk exclude_images) :
    2 ≤ (lookupGroup (groupsOf walk exclude_images) person).length := by
  unfold namesGte2Of at h
  obtain ⟨kv, hkv, hfst⟩ := List.mem_map.mp h
  have hmemf := List.mem_filter.mp hkv
  have hnd : ((groupsOf walk exclude_images).map Prod.fst).Nodup :=
    keys_nodup_images_by_person _
  have hlook : lookupGroup (groupsOf walk exclude_images) kv.1 = kv.2 :=
    lookup_of_mem_entries _ hnd kv.1 kv.2 (by
      have : (kv.1, kv.2) = kv := rfl
      rw [this]
      exact hmemf.1)
  rw [← hfst, hlook]
  simpa using hmemf.2

theorem namesOf_nodup (walk : List (String × String))
    (exclude_images : List ImagePair) :
    (namesOf walk exclude_images).Nodup :=
  keys_nodup_images_by_person _

theorem lookup_ne_nil_of_mem_namesOf (walk : List (String × String))
    (exclude_images : List ImagePair) (person : String)
    (h : person ∈ namesOf walk exclude_images) :
    lookupGroup (groupsOf walk exclude_images) person ≠ [] := by
  unfold namesOf groupsOf at h
  obtain ⟨i, hi, hip⟩ := (mem_keys_images_by_person _ _).mp h
  intro hc
  unfold groupsOf at hc
  rw [lookupGroup_images_by_person] at hc
  have : i ∈ (sampledImages walk exclude_images).filter
      (fun j => j.person == person) :=
    List.mem_filter.mpr ⟨hi, by simp [hip]⟩
  rw [hc] at this
  cases this

/-- C9: when the pairable pool is empty and at least one positive pair
is requested, or when fewer than two distinct person names exist while
the negative phase still needs a pair, the sampler raises the
empty-sequence error immediately, for every stream and every fuel, so
it does not loop; and with non-empty pools the empty-sequence error can
never be raised, so the only non-success outcomes are the documented
collision-driven endless looping (fuel exhaustion) or the missing
directory error. -/
theorem C9_empty_pools (walk : List (String × String)) (is_dir : Bool)
    (nb_max : Nat) (psi io : Bool) (exclude_images : List ImagePair)
    (seed : Option Nat) (fuel : Nat) (g0 : RandState) :
    (is_dir = true → namesGte2Of walk exclude_images = [] →
      2 ≤ nb_max → 1 ≤ fuel →
      get_image_pairs walk is_dir nb_max psi io exclude_images seed
        fuel g0 = .error .emptyChoice) ∧
    (∀ (f : Nat → Nat) (names : List String)
      (groups : List (String × List ImageFile))
      (nb_added : Nat) (pairs : List ImagePair) (added : List String)
      (idx : Nat), names.length ≤ 1 → nb_added < nb_max → 1 ≤ fuel →
      negLoop f names groups io nb_max fuel nb_added pairs added idx =
        .error .emptyChoice) ∧
    ((sampledImages walk exclude_images).Nodup →
      namesGte2Of walk exclude_images ≠ [] →
      2 ≤ (namesOf walk exclude_images).length →
      get_image_pairs walk is_dir nb_max psi io exclude_images seed
        fuel g0 ≠ .error .emptyChoice) := by
  refine ⟨?_, ?_, ?_⟩
  · intro hdir hgte hnb hfuel
    obtain ⟨fuel2, rfl⟩ : ∃ k, fuel = k + 1 := ⟨fuel - 1, by omega⟩
    have hquota : 0 < nb_max / 2 := by omega
    have hcore : ∀ (f : Nat → Nat) (idx0 : Nat),
        get_image_pairs_core walk is_dir nb_max psi io exclude_images
          f idx0 (fuel2 + 1) = .error .emptyChoice := by
      intro f idx0
      unfold get_image_pairs_core
      rw [if_neg (by rw [hdir]; simp)]
      have hpos : posLoop f (namesGte2Of walk exclude_images)
          (groupsOf walk exclude_images) psi io (nb_max / 2)
          (fuel2 + 1) 0 [] [] idx0 = .error .emptyChoice := by
        unfold posLoop
        rw [if_pos hquota, hgte]
        rfl
      rw [hpos]
    unfold get_image_pairs
    cases seed with
    | some s =>
      dsimp only
      rw [hcore (seededStream s) 0]
    | none =>
      dsimp only
      rw [hcore g0.f g0.idx]
  · intro f names groups nb_added pairs added idx hnames hlt hfuel
    obtain ⟨fuel2, rfl⟩ : ∃ k, fuel = k + 1 := ⟨fuel - 1, by omega⟩
    unfold negLoop
    rw [if_pos hlt]
    cases names with
    | nil => rfl
    | cons p rest =>
      have hrest : rest = [] := by
        simp only [List.length_cons] at hnames
        exact List.length_eq_zero.mp (by omega)
      subst hrest
      rw [rchoice_singleton f idx p]
      dsimp only
      have hfil : ([p].filter (fun person => person ≠ p)) = [] := by
        simp
      rw [hfil]
      rfl
  · intro hndup hgte hnames hcontra
    have hcore_ne : ∀ (f : Nat → Nat) (idx0 : Nat),
        get_image_pairs_core walk is_dir nb_max psi io exclude_images
          f idx0 fuel ≠ .error .emptyChoice := by
      intro f idx0 hc
      unfold get_image_pairs_core at hc
      by_cases hd : is_dir = false
      · rw [if_pos hd] at hc
        injection hc with h2
        cases h2
      · rw [if_neg hd] at hc
        have hposne := posLoop_no_empty f
          (namesGte2Of walk exclude_images)
          (groupsOf walk exclude_images) psi io (nb_max / 2) hgte
          (fun person hp => mem_namesGte2_lookup_len walk exclude_images
            person hp)
          (fun person => by
            unfold groupsOf
            rw [lookupGroup_images_by_person]
            exact hndup.filter _)
        cases hp : posLoop f (namesGte2Of walk exclude_images)
            (groupsOf walk exclude_images) psi io (nb_max / 2) fuel
            0 [] [] idx0 with
        | error e =>
          rw [hp] at hc
          injection hc with h2
          exact hposne fuel 0 [] [] idx0 (h2 ▸ hp)
        | ok v1 =>
          obtain ⟨nb1, pairs1, added1, idx1⟩ := v1
          rw [hp] at hc
          dsimp only at hc
          have hnegne := negLoop_no_empty f (namesOf walk exclude_images)
            (groupsOf walk exclude_images) io nb_max
            (namesOf_nodup walk exclude_images) hnames
            (fun person hp2 => lookup_ne_nil_of_mem_namesOf walk
              exclude_images person hp2)
          cases hn : negLoop f (namesOf walk exclude_images)
              (groupsOf walk exclude_images) io nb_max fuel
              nb1 pairs1 added1 idx1 with
          | error e =>
            rw [hn] at hc
            injection hc with h2
            exact hnegne fuel nb1 pairs1 added1 idx1 (h2 ▸ hn)
          | ok v2 =>
            obtain ⟨nb2, pairs2, added2, idx2⟩ := v2
            rw [hn] at hc
            dsimp only at hc
            cases hc
    unfold get_image_pairs at hcontra
    cases seed with
    | some s =>
      dsimp only at hcontra
      cases hcc : get_image_pairs_core walk is_dir nb_max psi io
          exclude_images (seededStream s) 0 fuel with
      | error e =>
        try rw [hcc] at hcontra
        dsimp only at hcontra
        injection hcontra with h2
        exact hcore_ne (seededStream s) 0 (h2 ▸ hcc)
      | ok v =>
        obtain ⟨sh, idxE⟩ := v
        try rw [hcc] at hcontra
        dsimp only at hcontra
        cases hcontra
    | none =>
      dsimp only at hcontra
      cases hcc : get_image_pairs_core walk is_dir nb_max psi io
          exclude_images g0.f g0.idx fuel with
      | error e =>
        try rw [hcc] at hcontra
        dsimp only at hcontra
        injection hcontra with h2
        exact hcore_ne g0.f g0.idx (h2 ▸ hcc)
      | ok v =>
        obtain ⟨sh, idxE⟩ := v
        try rw [hcc] at hcontra
        dsimp only at hcontra
        cases hcontra

/-- Witness for C9: a dataset with no pairable person raises the
empty-choice error immediately, and the fixture dataset with non-empty
pools cannot raise it. -/
theorem C9_empty_pools_witness :
    get_image_pairs [("d", "A_1.pgm"), ("d", "B_1.pgm")] true 2 false
      true [] none 7 gZero = .error .emptyChoice ∧
    get_image_pairs walkAB true 2 false true [] none 7 gZero ≠
      .error .emptyChoice := by
  constructor
  · exact (C9_empty_pools [("d", "A_1.pgm"), ("d", "B_1.pgm")] true 2
      false true [] none 7 gZero).1 rfl (by decide) (by omega) (by omega)
  · exact (C9_empty_pools walkAB true 2 false true [] none 7
      gZero).2.2 (by decide) (by decide) (by decide)

/-! ## C1: stream-frame lemmas and existence of terminating runs -/

theorem rchoice_congr {α : Type} (f f2 : Nat → Nat) (idx : Nat)
    (l : List α) (h : f2 idx = f idx) :
    rchoice f2 idx l = rchoice f idx l := by
  cases l with
  | nil => rfl
  | cons a as =>
    show Except.ok ((a :: as).get ⟨f2 idx % (as.length + 1),
        Nat.mod_lt _ (Nat.succ_pos _)⟩, idx + 1) =
      Except.ok ((a :: as).get ⟨f idx % (as.length + 1),
        Nat.mod_lt _ (Nat.succ_pos _)⟩, idx + 1)
    have hfin : (⟨f2 idx % (as.length + 1),
        Nat.mod_lt _ (Nat.succ_pos _)⟩ : Fin (as.length + 1)) =
        ⟨f idx % (as.length + 1), Nat.mod_lt _ (Nat.succ_pos _)⟩ :=
      Fin.ext (by rw [h])
    rw [hfin]

theorem posLoop_frame (names_gte2 : List String)
    (groups : List (String × List ImageFile)) (psi io : Bool)
    (quota : Nat) :
    ∀ fuel (f f2 : Nat → Nat) nb_added pairs added idx nb2 pairs2
      added2 idx2,
    posLoop f names_gte2 groups psi io quota fuel nb_added pairs added
      idx = .ok (nb2, pairs2, added2, idx2) →
    (∀ i, idx ≤ i → i < idx2 → f2 i = f i) →
    posLoop f2 names_gte2 groups psi io quota fuel nb_added pairs added
      idx = .ok (nb2, pairs2, added2, idx2) := by
  intro fuel
  induction fuel with
  | zero =>
    intro f f2 nb_added pairs added idx nb2 pairs2 added2 idx2 h hag
    by_cases hlt : nb_added < quota
    · unfold posLoop at h
      rw [if_pos hlt] at h
      cases h
    · unfold posLoop at h ⊢
      rw [if_neg hlt] at h ⊢
      exact h
  | succ fuel ih =>
    intro f f2 nb_added pairs added idx nb2 pairs2 added2 idx2 h hag
    by_cases hlt : nb_added < quota
    · unfold posLoop at h ⊢
      rw [if_pos hlt] at h ⊢
      cases hc1 : rchoice f idx names_gte2 with
      | error e => rw [hc1] at h; cases h
      | ok v1 =>
        obtain ⟨person, idxA⟩ := v1
        rw [hc1] at h
        dsimp only at h
        obtain ⟨-, rfl⟩ := rchoice_ok_inv f idx names_gte2 person idxA hc1
        cases hc2 : rchoice f (idx + 1) (lookupGroup groups person) with
        | error e => rw [hc2] at h; cases h
        | ok v2 =>
          obtain ⟨image1, idxB⟩ := v2
          rw [hc2] at h
          dsimp only at h
          obtain ⟨-, rfl⟩ := rchoice_ok_inv f (idx + 1) _ image1 idxB hc2
          cases hc3 : rchoice f (idx + 1 + 1)
              (if psi then lookupGroup groups person
               else (lookupGroup groups person).filter
                 (fun image => image ≠ image1)) with
          | error e => rw [hc3] at h; cases h
          | ok v3 =>
            obtain ⟨image2, idxC⟩ := v3
            rw [hc3] at h
            dsimp only at h
            obtain ⟨-, rfl⟩ :=
              rchoice_ok_inv f (idx + 1 + 1) _ image2 idxC hc3
            have hidx2 : idx + 1 + 1 + 1 ≤ idx2 := by
              by_cases hck : added.contains
                  ((mkImagePair image1 image2).get_key io)
              · rw [if_pos hck] at h
                exact (posLoop_ok_spec f names_gte2 groups psi io quota
                  fuel _ _ _ _ nb2 pairs2 added2 idx2 h
                  (Nat.le_of_lt hlt)).2.1
              · rw [if_neg hck] at h
                exact (posLoop_ok_spec f names_gte2 groups psi io quota
                  fuel _ _ _ _ nb2 pairs2 added2 idx2 h hlt).2.1
            have hd0 : f2 idx = f idx := hag idx (Nat.le_refl _) (by omega)
            have hd1 : f2 (idx + 1) = f (idx + 1) :=
              hag (idx + 1) (by omega) (by omega)
            have hd2 : f2 (idx + 1 + 1) = f (idx + 1 + 1) :=
              hag (idx + 1 + 1) (by omega) (by omega)
            have hc1b : rchoice f2 idx names_gte2 =
                .ok (person, idx + 1) :=
              (rchoice_congr f f2 idx names_gte2 hd0).trans hc1
            have hc2b : rchoice f2 (idx + 1) (lookupGroup groups person) =
                .ok (image1, idx + 1 + 1) :=
              (rchoice_congr f f2 (idx + 1) _ hd1).trans hc2
            have hc3b : rchoice f2 (idx + 1 + 1)
                (if psi then lookupGroup groups person
                 else (lookupGroup groups person).filter
                   (fun image => image ≠ image1)) =
                .ok (image2, idx + 1 + 1 + 1) :=
              (rchoice_congr f f2 (idx + 1 + 1) _ hd2).trans hc3
            rw [hc1b]
            dsimp only
            rw [hc2b]
            dsimp only
            rw [hc3b]
            dsimp only
            by_cases hck : added.contains
                ((mkImagePair image1 image2).get_key io)
            · rw [if_pos hck] at h ⊢
              exact ih f f2 _ _ _ _ nb2 pairs2 added2 idx2 h
                (fun i hi1 hi2 => hag i (by omega) hi2)
            · rw [if_neg hck] at h ⊢
              exact ih f f2 _ _ _ _ nb2 pairs2 added2 idx2 h
                (fun i hi1 hi2 => hag i (by omega) hi2)
    · unfold posLoop at h ⊢
      rw [if_neg hlt] at h ⊢
      exact h

theorem negLoop_frame (names : List String)
    (groups : List (String × List ImageFile)) (io : Bool)
    (nb_max : Nat) :
    ∀ fuel (f f2 : Nat → Nat) nb_added pairs added idx nb2 pairs2
      added2 idx2,
    negLoop f names groups io nb_max fuel nb_added pairs added idx =
      .ok (nb2, pairs2, added2, idx2) →
    (∀ i, idx ≤ i → i < idx2 → f2 i = f i) →
    negLoop f2 names groups io nb_max fuel nb_added pairs added idx =
      .ok (nb2, pairs2, added2, idx2) := by
  intro fuel
  induction fuel with
  | zero =>
    intro f f2 nb_added pairs added idx nb2 pairs2 added2 idx2 h hag
    by_cases hlt : nb_added < nb_max
    · unfold negLoop at h
      rw [if_pos hlt] at h
      cases h
    · unfold negLoop at h ⊢
      rw [if_neg hlt] at h ⊢
      exact h
  | succ fuel ih =>
    intro f f2 nb_added pairs added idx nb2 pairs2 added2 idx2 h hag
    by_cases hlt : nb_added < nb_max
    · unfold negLoop at h ⊢
      rw [if_pos hlt] at h ⊢
      cases hc1 : rchoice f idx names with
      | error e => rw [hc1] at h; cases h
      | ok v1 =>
        obtain ⟨person1, idxA⟩ := v1
        rw [hc1] at h
        dsimp only at h
        obtain ⟨-, rfl⟩ := rchoice_ok_inv f idx names person1 idxA hc1
        cases hc2 : rchoice f (idx + 1)
            (names.filter (fun person => person ≠ person1)) with
        | error e => rw [hc2] at h; cases h
        | ok v2 =>
          obtain ⟨person2, idxB⟩ := v2
          rw [hc2] at h
          dsimp only at h
          obtain ⟨-, rfl⟩ := rchoice_ok_inv f (idx + 1) _ person2 idxB hc2
          cases hc3 : rchoice f (idx + 1 + 1)
              (lookupGroup groups person1) with
          | error e => rw [hc3] at h; cases h
          | ok v3 =>
            obtain ⟨image1, idxC⟩ := v3
            rw [hc3] at h
            dsimp only at h
            obtain ⟨-, rfl⟩ :=
              rchoice_ok_inv f (idx + 1 + 1) _ image1 idxC hc3
            cases hc4 : rchoice f (idx + 1 + 1 + 1)
                (lookupGroup groups person2) with
            | error e => rw [hc4] at h; cases h
            | ok v4 =>
              obtain ⟨image2, idxD⟩ := v4
              rw [hc4] at h
              dsimp only at h
              obtain ⟨-, rfl⟩ :=
                rchoice_ok_inv f (idx + 1 + 1 + 1) _ image2 idxD hc4
              have hidx2 : idx + 1 + 1 + 1 + 1 ≤ idx2 := by
                by_cases hck : added.contains
                    ((mkImagePair image1 image2).get_key io)
                · rw [if_pos hck] at h
                  exact (negLoop_ok_spec f names groups io nb_max
                    fuel _ _ _ _ nb2 pairs2 added2 idx2 h
                    (Nat.le_of_lt hlt)).2.1
                · rw [if_neg hck] at h
                  exact (negLoop_ok_spec f names groups io nb_max
                    fuel _ _ _ _ nb2 pairs2 added2 idx2 h hlt).2.1
              have hd0 : f2 idx = f idx :=
                hag idx (Nat.le_refl _) (by omega)
              have hd1 : f2 (idx + 1) = f (idx + 1) :=
                hag (idx + 1) (by omega) (by omega)
              have hd2 : f2 (idx + 1 + 1) = f (idx + 1 + 1) :=
                hag (idx + 1 + 1) (by omega) (by omega)
              have hd3 : f2 (idx + 1 + 1 + 1) = f (idx + 1 + 1 + 1) :=
                hag (idx + 1 + 1 + 1) (by omega) (by omega)
              rw [(rchoice_congr f f2 idx names hd0).trans hc1]
              dsimp only
              rw [(rchoice_congr f f2 (idx + 1) _ hd1).trans hc2]
              dsimp only
              rw [(rchoice_congr f f2 (idx + 1 + 1) _ hd2).trans hc3]
              dsimp only
              rw [(rchoice_congr f f2 (idx + 1 + 1 + 1) _ hd3).trans hc4]
              dsimp only
              by_cases hck : added.contains
                  ((mkImagePair image1 image2).get_key io)
              · rw [if_pos hck] at h ⊢
                exact ih f f2 _ _ _ _ nb2 pairs2 added2 idx2 h
                  (fun i hi1 hi2 => hag i (by omega) hi2)
              · rw [if_neg hck] at h ⊢
                exact ih f f2 _ _ _ _ nb2 pairs2 added2 idx2 h
                  (fun i hi1 hi2 => hag i (by omega) hi2)
    · unfold negLoop at h ⊢
      rw [if_neg hlt] at h ⊢
      exact h

theorem mem_posCandList (n2 : List String)
    (groups : List (String × List ImageFile)) (psi : Bool)
    (p : ImagePair) :
    p ∈ posCandList n2 groups psi ↔ PosDrawn n2 groups psi p := by
  unfold posCandList PosDrawn
  simp only [List.mem_bind, List.mem_map]
  constructor
  · rintro ⟨person, hper, image1, h1, image2, h2, rfl⟩
    exact ⟨person, hper, image1, h1, image2, h2, rfl⟩
  · rintro ⟨person, hper, image1, h1, image2, h2, rfl⟩
    exact ⟨person, hper, image1, h1, image2, h2, rfl⟩

theorem mem_negCandList (names : List String)
    (groups : List (String × List ImageFile)) (p : ImagePair) :
    p ∈ negCandList names groups ↔ NegDrawn names groups p := by
  unfold negCandList NegDrawn
  simp only [List.mem_bind, List.mem_map]
  constructor
  · rintro ⟨p1, hp1, p2, hp2, i1, h1, i2, h2, rfl⟩
    exact ⟨p1, hp1, p2, hp2, i1, h1, i2, h2, rfl⟩
  · rintro ⟨p1, hp1, p2, hp2, i1, h1, i2, h2, rfl⟩
    exact ⟨p1, hp1, p2, hp2, i1, h1, i2, h2, rfl⟩

theorem fresh_key_exists (cands : List ImagePair) (io : Bool)
    (added : List String)
    (hnd : added.Nodup)
    (hlen : added.length <
      ((cands.map (fun p => p.get_key io)).dedup).length) :
    ∃ p ∈ cands, p.get_key io ∉ added := by
  by_contra hcon
  push_neg at hcon
  have hsub2 : (cands.map (fun p => p.get_key io)).dedup ⊆ added := by
    intro k hk
    rw [List.mem_dedup] at hk
    obtain ⟨p, hp, rfl⟩ := List.mem_map.mp hk
    exact hcon p hp
  have hle := (List.subperm_of_subset (List.nodup_dedup _) hsub2).length_le
  omega

theorem contains_eq_false_of_not_mem (added : List String) (k : String)
    (h : k ∉ added) : added.contains k = false := by
  cases hcb : added.contains k with
  | false => rfl
  | true => exact absurd (List.mem_of_elem_eq_true hcb) h

theorem posLoop_exists (n2 : List String)
    (groups : List (String × List ImageFile)) (psi io : Bool)
    (quota : Nat)
    (hquota : quota ≤
      ((posCandList n2 groups psi).map
        (fun p => p.get_key io)).dedup.length) :
    ∀ rem nb_added pairs added idx,
    quota = nb_added + rem →
    added.Nodup →
    added.length = nb_added →
    ∃ f2 nb2 pairs2 added2 idx2,
      posLoop f2 n2 groups psi io quota rem nb_added pairs added idx =
        .ok (nb2, pairs2, added2, idx2) := by
  intro rem
  induction rem with
  | zero =>
    intro nb_added pairs added idx hsum hnd hlen
    refine ⟨fun _ => 0, nb_added, pairs, added, idx, ?_⟩
    unfold posLoop
    rw [if_neg (by omega)]
  | succ rem ih =>
    intro nb_added pairs added idx hsum hnd hlen
    have hlt : nb_added < quota := by omega
    obtain ⟨p, hpc, hknotin⟩ := fresh_key_exists
      (posCandList n2 groups psi) io added hnd (by omega)
    obtain ⟨person, hper, image1, h1, image2, h2, rfl⟩ :=
      (mem_posCandList n2 groups psi p).mp hpc
    obtain ⟨jp, hjplt, hjp⟩ : ∃ j, ∃ hj : j < n2.length,
        n2.get ⟨j, hj⟩ = person := by
      obtain ⟨i, hi⟩ := List.mem_iff_get.mp hper
      exact ⟨i.val, i.isLt, hi⟩
    obtain ⟨j1, hj1lt, hj1⟩ : ∃ j, ∃ hj :
        j < (lookupGroup groups person).length,
        (lookupGroup groups person).get ⟨j, hj⟩ = image1 := by
      obtain ⟨i, hi⟩ := List.mem_iff_get.mp h1
      exact ⟨i.val, i.isLt, hi⟩
    obtain ⟨j2, hj2lt, hj2⟩ : ∃ j, ∃ hj :
        j < (if psi then lookupGroup groups person
          else (lookupGroup groups person).filter
            (fun image => image ≠ image1)).length,
        (if psi then lookupGroup groups person
          else (lookupGroup groups person).filter
            (fun image => image ≠ image1)).get ⟨j, hj⟩ = image2 := by
      obtain ⟨i, hi⟩ := List.mem_iff_get.mp h2
      exact ⟨i.val, i.isLt, hi⟩
    obtain ⟨fRest, nb2, pairs2, added2, idx2, hrest⟩ := ih (nb_added + 1)
      (pairs ++ [mkImagePair image1 image2])
      ((mkImagePair image1 image2).get_key io :: added) (idx + 3)
      (by omega)
      (List.nodup_cons.mpr ⟨hknotin, hnd⟩)
      (by simp [hlen])
    refine ⟨fun i => if i = idx then jp else if i = idx + 1 then j1
      else if i = idx + 2 then j2 else fRest i,
      nb2, pairs2, added2, idx2, ?_⟩
    unfold posLoop
    rw [if_pos hlt]
    have hp1 : rchoice (fun i => if i = idx then jp
        else if i = idx + 1 then j1 else if i = idx + 2 then j2
        else fRest i) idx n2 = .ok (person, idx + 1) := by
      rw [rchoice_pick _ idx n2 jp hjplt (by simp)]
      rw [hjp]
    rw [hp1]
    dsimp only
    have hp2 : rchoice (fun i => if i = idx then jp
        else if i = idx + 1 then j1 else if i = idx + 2 then j2
        else fRest i) (idx + 1) (lookupGroup groups person) =
        .ok (image1, idx + 1 + 1) := by
      rw [rchoice_pick _ (idx + 1) _ j1 hj1lt (by
        simp [Nat.succ_ne_self])]
      rw [hj1]
    rw [hp2]
    dsimp only
    have hp3 : rchoice (fun i => if i = idx then jp
        else if i = idx + 1 then j1 else if i = idx + 2 then j2
        else fRest i) (idx + 1 + 1)
        (if psi then lookupGroup groups person
         else (lookupGroup groups person).filter
           (fun image => image ≠ image1)) =
        .ok (image2, idx + 1 + 1 + 1) := by
      rw [rchoice_pick _ (idx + 1 + 1) _ j2 hj2lt (by
        have e1 : idx + 1 + 1 ≠ idx := by omega
        have e2 : idx + 1 + 1 ≠ idx + 1 := by omega
        simp [e1, e2])]
      rw [hj2]
    rw [hp3]
    dsimp only
    rw [if_neg (by
      rw [contains_eq_false_of_not_mem added _ hknotin]
      simp)]
    refine posLoop_frame n2 groups psi io quota rem fRest _
      (nb_added + 1) (pairs ++ [mkImagePair image1 image2])
      ((mkImagePair image1 image2).get_key io :: added)
      (idx + 3) nb2 pairs2 added2 idx2 ?_ ?_
    · exact hrest
    · intro i hi1 hi2
      have e1 : i ≠ idx := by omega
      have e2 : i ≠ idx + 1 := by omega
      have e3 : i ≠ idx + 2 := by omega
      simp [e1, e2, e3]

theorem negLoop_exists (names : List String)
    (groups : List (String × List ImageFile)) (io : Bool)
    (nb_max : Nat) :
    ∀ rem nb_added pairs added idx,
    nb_max = nb_added + rem →
    added.Nodup →
    (added.filter (fun k =>
      decide (k ∈ (negCandList names groups).map
        (fun p => p.get_key io)))).length + rem ≤
      ((negCandList names groups).map
        (fun p => p.get_key io)).dedup.length →
    ∃ f2 nb2 pairs2 added2 idx2,
      negLoop f2 names groups io nb_max rem nb_added pairs added idx =
        .ok (nb2, pairs2, added2, idx2) := by
  intro rem
  induction rem with
  | zero =>
    intro nb_added pairs added idx hsum hnd hcnt
    refine ⟨fun _ => 0, nb_added, pairs, added, idx, ?_⟩
    unfold negLoop
    rw [if_neg (by omega)]
  | succ rem ih =>
    intro nb_added pairs added idx hsum hnd hcnt
    have hlt : nb_added < nb_max := by omega
    have hfresh : ∃ p ∈ negCandList names groups,
        p.get_key io ∉ added := by
      by_contra hcon
      push_neg at hcon
      have hsub2 : ((negCandList names groups).map
          (fun p => p.get_key io)).dedup ⊆
          added.filter (fun k =>
            decide (k ∈ (negCandList names groups).map
              (fun p => p.get_key io))) := by
        intro k hk
        rw [List.mem_dedup] at hk
        obtain ⟨p, hp, rfl⟩ := List.mem_map.mp hk
        refine List.mem_filter.mpr ⟨hcon p hp, ?_⟩
        simp only [decide_eq_true_eq]
        exact List.mem_map.mpr ⟨p, hp, rfl⟩
      have hle := (List.subperm_of_subset (List.nodup_dedup _)
        hsub2).length_le
      omega
    obtain ⟨p, hpc, hknotin⟩ := hfresh
    obtain ⟨person1, hper1, person2, hper2, image1, h1, image2, h2, rfl⟩ :=
      (mem_negCandList names groups p).mp hpc
    obtain ⟨jp1, hjp1lt, hjp1⟩ : ∃ j, ∃ hj : j < names.length,
        names.get ⟨j, hj⟩ = person1 := by
      obtain ⟨i, hi⟩ := List.mem_iff_get.mp hper1
      exact ⟨i.val, i.isLt, hi⟩
    obtain ⟨jp2, hjp2lt, hjp2⟩ : ∃ j, ∃ hj :
        j < (names.filter (fun person => person ≠ person1)).length,
        (names.filter (fun person => person ≠ person1)).get ⟨j, hj⟩ =
          person2 := by
      obtain ⟨i, hi⟩ := List.mem_iff_get.mp hper2
      exact ⟨i.val, i.isLt, hi⟩
    obtain ⟨j1, hj1lt, hj1⟩ : ∃ j, ∃ hj :
        j < (lookupGroup groups person1).length,
        (lookupGroup groups person1).get ⟨j, hj⟩ = image1 := by
      obtain ⟨i, hi⟩ := List.mem_iff_get.mp h1
      exact ⟨i.val, i.isLt, hi⟩
    obtain ⟨j2, hj2lt, hj2⟩ : ∃ j, ∃ hj :
        j < (lookupGroup groups person2).length,
        (lookupGroup groups person2).get ⟨j, hj⟩ = image2 := by
      obtain ⟨i, hi⟩ := List.mem_iff_get.mp h2
      exact ⟨i.val, i.isLt, hi⟩
    have hcnt2 : (((mkImagePair image1 image2).get_key io :: added).filter
        (fun k => decide (k ∈ (negCandList names groups).map
          (fun p => p.get_key io)))).length + rem ≤
        ((negCandList names groups).map
          (fun p => p.get_key io)).dedup.length := by
      rw [List.filter_cons]
      by_cases hmem : ((mkImagePair image1 image2).get_key io ∈
          (negCandList names groups).map (fun p => p.get_key io))
      · simp only [hmem, decide_True, if_pos, List.length_cons]
        omega
      · simp only [hmem, decide_False, if_neg, Bool.false_eq_true,
          not_false_eq_true]
        omega
    obtain ⟨fRest, nb2, pairs2, added2, idx2, hrest⟩ := ih (nb_added + 1)
      (pairs ++ [mkImagePair image1 image2])
      ((mkImagePair image1 image2).get_key io :: added) (idx + 4)
      (by omega)
      (List.nodup_cons.mpr ⟨hknotin, hnd⟩)
      hcnt2
    refine ⟨fun i => if i = idx then jp1 else if i = idx + 1 then jp2
      else if i = idx + 2 then j1 else if i = idx + 3 then j2
      else fRest i,
      nb2, pairs2, added2, idx2, ?_⟩
    unfold negLoop
    rw [if_pos hlt]
    have hp1 : rchoice (fun i => if i = idx then jp1
        else if i = idx + 1 then jp2 else if i = idx + 2 then j1
        else if i = idx + 3 then j2 else fRest i) idx names =
        .ok (person1, idx + 1) := by
      rw [rchoice_pick _ idx names jp1 hjp1lt (by simp)]
      rw [hjp1]
    rw [hp1]
    dsimp only
    have hp2 : rchoice (fun i => if i = idx then jp1
        else if i = idx + 1 then jp2 else if i = idx + 2 then j1
        else if i = idx + 3 then j2 else fRest i) (idx + 1)
        (names.filter (fun person => person ≠ person1)) =
        .ok (person2, idx + 1 + 1) := by
      rw [rchoice_pick _ (idx + 1) _ jp2 hjp2lt (by
        simp [Nat.succ_ne_self])]
      rw [hjp2]
    rw [hp2]
    dsimp only
    have hp3 : rchoice (fun i => if i = idx then jp1
        else if i = idx + 1 then jp2 else if i = idx + 2 then j1
        else if i = idx + 3 then j2 else fRest i) (idx + 1 + 1)
        (lookupGroup groups person1) = .ok (image1, idx + 1 + 1 + 1) := by
      rw [rchoice_pick _ (idx + 1 + 1) _ j1 hj1lt (by
        have e1 : idx + 1 + 1 ≠ idx := by omega
        have e2 : idx + 1 + 1 ≠ idx + 1 := by omega
        simp [e1, e2])]
      rw [hj1]
    rw [hp3]
    dsimp only
    have hp4 : rchoice (fun i => if i = idx then jp1
        else if i = idx + 1 then jp2 else if i = idx + 2 then j1
        else if i = idx + 3 then j2 else fRest i) (idx + 1 + 1 + 1)
        (lookupGroup groups person2) =
        .ok (image2, idx + 1 + 1 + 1 + 1) := by
      rw [rchoice_pick _ (idx + 1 + 1 + 1) _ j2 hj2lt (by
        have e1 : idx + 1 + 1 + 1 ≠ idx := by omega
        have e2 : idx + 1 + 1 + 1 ≠ idx + 1 := by omega
        have e3 : idx + 1 + 1 + 1 ≠ idx + 2 := by omega
        simp [e1, e2, e3])]
      rw [hj2]
    rw [hp4]
    dsimp only
    rw [if_neg (by
      rw [contains_eq_false_of_not_mem added _ hknotin]
      simp)]
    refine negLoop_frame names groups io nb_max rem fRest _
      (nb_added + 1) (pairs ++ [mkImagePair image1 image2])
      ((mkImagePair image1 image2).get_key io :: added)
      (idx + 4) nb2 pairs2 added2 idx2 ?_ ?_
    · exact hrest
    · intro i hi1 hi2
      have e1 : i ≠ idx := by omega
      have e2 : i ≠ idx + 1 := by omega
      have e3 : i ≠ idx + 2 := by omega
      have e4 : i ≠ idx + 3 := by omega
      simp [e1, e2, e3, e4]

/-! ## Dedup keys determine the filepaths of dollar-free pairs -/

theorem sep_split : ∀ (xs us ds es : List Char), '$' ∉ xs → '$' ∉ us →
    xs ++ '$' :: ds = us ++ '$' :: es → xs = us ∧ ds = es := by
  intro xs
  induction xs with
  | nil =>
    intro us ds es _ hus h
    cases us with
    | nil =>
      simp only [List.nil_append] at h
      injection h with h1 h2
      exact ⟨rfl, h2⟩
    | cons u ut =>
      simp only [List.nil_append, List.cons_append] at h
      injection h with h1 h2
      exact absurd (h1 ▸ List.mem_cons_self u ut) hus
  | cons x xt ih =>
    intro us ds es hxs hus h
    cases us with
    | nil =>
      simp only [List.cons_append, List.nil_append] at h
      injection h with h1 h2
      exact absurd (h1 ▸ List.mem_cons_self x xt) hxs
    | cons u ut =>
      simp only [List.cons_append] at h
      injection h with h1 h2
      have hxt : '$' ∉ xt := fun hc => hxs (List.mem_cons_of_mem x hc)
      have hut : '$' ∉ ut := fun hc => hus (List.mem_cons_of_mem u hc)
      obtain ⟨h3, h4⟩ := ih ut ds es hxt hut h2
      exact ⟨by rw [h1, h3], h4⟩

theorem dollarFree_not_mem (s : String) (h : dollarFree s = true) :
    '$' ∉ s.data := by
  unfold dollarFree at h
  rw [Bool.not_eq_true'] at h
  intro hc
  have h2 : s.data.contains '$' = true := List.elem_eq_true_of_mem hc
  rw [h] at h2
  cases h2

theorem str_sep_inj (a b c d : String) (ha : dollarFree a = true)
    (hb : dollarFree b = true) (hc : dollarFree c = true)
    (hd : dollarFree d = true)
    (h : a ++ "$$$" ++ b = c ++ "$$$" ++ d) : a = c ∧ b = d := by
  have hdata : a.data ++ '$' :: ('$' :: '$' :: b.data) =
      c.data ++ '$' :: ('$' :: '$' :: d.data) := by
    have h2 := congrArg String.data h
    rw [String.data_append, String.data_append, String.data_append,
      String.data_append] at h2
    have hsep : ("$$$" : String).data = ['$', '$', '$'] := by decide
    rw [hsep] at h2
    simpa using h2
  obtain ⟨h1, h2⟩ := sep_split a.data c.data _ _
    (dollarFree_not_mem a ha) (dollarFree_not_mem c hc) hdata
  injection h2 with h3 h4
  injection h4 with h5 h6
  exact ⟨String.ext h1, String.ext h6⟩

theorem get_key_filepaths (p q : ImagePair) (io : Bool)
    (hp1 : dollarFree p.image1.filepath = true)
    (hp2 : dollarFree p.image2.filepath = true)
    (hq1 : dollarFree q.image1.filepath = true)
    (hq2 : dollarFree q.image2.filepath = true)
    (h : p.get_key io = q.get_key io) :
    (p.image1.filepath = q.image1.filepath ∧
      p.image2.filepath = q.image2.filepath) ∨
    (p.image1.filepath = q.image2.filepath ∧
      p.image2.filepath = q.image1.filepath) := by
  unfold ImagePair.get_key at h
  cases io with
  | false =>
    simp only [Bool.false_eq_true, if_neg, if_false] at h
    exact Or.inl (str_sep_inj _ _ _ _ hp1 hp2 hq1 hq2 h)
  | true =>
    simp only [if_pos] at h
    by_cases hsp : strLe p.image1.filepath p.image2.filepath <;>
      by_cases hsq : strLe q.image1.filepath q.image2.filepath
    · rw [if_pos hsp, if_pos hsq] at h
      exact Or.inl (str_sep_inj _ _ _ _ hp1 hp2 hq1 hq2 h)
    · rw [if_pos hsp, if_neg hsq] at h
      exact Or.inr (str_sep_inj _ _ _ _ hp1 hp2 hq2 hq1 h)
    · rw [if_neg hsp, if_pos hsq] at h
      obtain ⟨h1, h2⟩ := str_sep_inj _ _ _ _ hp2 hp1 hq1 hq2 h
      exact Or.inr ⟨h2, h1⟩
    · rw [if_neg hsp, if_neg hsq] at h
      obtain ⟨h1, h2⟩ := str_sep_inj _ _ _ _ hp2 hp1 hq2 hq1 h
      exact Or.inl ⟨h2, h1⟩

theorem sampledImages_person_derived (walk : List (String × String))
    (exclude_images : List ImagePair) (i : ImageFile)
    (h : i ∈ sampledImages walk exclude_images) :
    i.person = filepath_to_person_name i.filepath := by
  unfold sampledImages get_image_files at h
  have h2 := (sortByFilename_perm _).mem_iff.mp h
  rw [List.mem_filterMap] at h2
  obtain ⟨dn, _, hsome⟩ := h2
  by_cases hcnd : matchesLfw dn.2 &&
      !(((excludedFiles exclude_images).map
        (fun image => image.filename)).contains dn.2)
  · rw [if_pos hcnd] at hsome
    obtain ⟨-, hfp, hper⟩ := mkImageFile_some dn.1 dn.2 i hsome
    rw [hper, hfp]
  · rw [if_neg hcnd] at hsome
    cases hsome

theorem pos_neg_key_ne (walk : List (String × String))
    (exclude_images : List ImagePair) (psi io : Bool)
    (hdollar : ∀ img ∈ sampledImages walk exclude_images,
      dollarFree img.filepath = true) :
    ∀ p q, PosDrawn (namesGte2Of walk exclude_images)
        (groupsOf walk exclude_images) psi p →
      NegDrawn (namesOf walk exclude_images)
        (groupsOf walk exclude_images) q →
      p.get_key io ≠ q.get_key io := by
  intro p q hpos hneg hkey
  obtain ⟨hpsame, hpm1, hpm2⟩ :=
    posDrawn_same_person walk exclude_images psi p hpos
  obtain ⟨hqsame, hqm1, hqm2⟩ :=
    negDrawn_diff_person walk exclude_images q hneg
  have hpersons : ∀ (x y : ImageFile),
      x ∈ sampledImages walk exclude_images →
      y ∈ sampledImages walk exclude_images →
      x.filepath = y.filepath → x.person = y.person := by
    intro x y hx hy hfp
    rw [sampledImages_person_derived walk exclude_images x hx,
      sampledImages_person_derived walk exclude_images y hy, hfp]
  have hpeq : p.image1.person = p.image2.person := by
    have := hpsame
    obtain ⟨person, -, image1, h1, image2, h2, rfl⟩ := hpos
    have e1 := mem_lookup_groupsOf walk exclude_images person image1 h1
    have h2b : image2 ∈ lookupGroup (groupsOf walk exclude_images)
        person := by
      by_cases hpsi : psi
      · rw [if_pos hpsi] at h2; exact h2
      · rw [if_neg hpsi] at h2; exact List.mem_of_mem_filter h2
    have e2 := mem_lookup_groupsOf walk exclude_images person image2 h2b
    show (mkImagePair image1 image2).image1.person =
      (mkImagePair image1 image2).image2.person
    rw [show (mkImagePair image1 image2).image1 = image1 from rfl,
      show (mkImagePair image1 image2).image2 = image2 from rfl,
      e1.2, e2.2]
  have hqne : q.image1.person ≠ q.image2.person := by
    intro hc
    rw [show q.same_person = (q.image1.person == q.image2.person) from ?_]
      at hqsame
    · rw [hc] at hqsame
      simp at hqsame
    · obtain ⟨p1, -, p2, -, i1, -, i2, -, rfl⟩ := hneg
      rfl
  rcases get_key_filepaths p q io (hdollar _ hpm1) (hdollar _ hpm2)
      (hdollar _ hqm1) (hdollar _ hqm2) hkey with ⟨h1, h2⟩ | ⟨h1, h2⟩
  · exact hqne (by
      rw [← hpersons p.image1 q.image1 hpm1 hqm1 h1,
        ← hpersons p.image2 q.image2 hpm2 hqm2 h2, hpeq])
  · exact hqne (by
      rw [← hpersons p.image1 q.image2 hpm1 hqm2 h1,
        ← hpersons p.image2 q.image1 hpm2 hqm1 h2, hpeq])

theorem posLoop_fuel_mono (f : Nat → Nat) (n2 : List String)
    (groups : List (String × List ImageFile)) (psi io : Bool)
    (quota : Nat) :
    ∀ fuel fuel2 nb_added pairs added idx r,
    posLoop f n2 groups psi io quota fuel nb_added pairs added idx =
      .ok r →
    fuel ≤ fuel2 →
    posLoop f n2 groups psi io quota fuel2 nb_added pairs added idx =
      .ok r := by
  intro fuel
  induction fuel with
  | zero =>
    intro fuel2 nb_added pairs added idx r h hle
    by_cases hlt : nb_added < quota
    · unfold posLoop at h
      rw [if_pos hlt] at h
      cases h
    · cases fuel2 with
      | zero => exact h
      | succ k =>
        unfold posLoop at h ⊢
        rw [if_neg hlt] at h ⊢
        exact h
  | succ fuel ih =>
    intro fuel2 nb_added pairs added idx r h hle
    obtain ⟨k, rfl⟩ : ∃ k, fuel2 = k + 1 := ⟨fuel2 - 1, by omega⟩
    have hk : fuel ≤ k := by omega
    by_cases hlt : nb_added < quota
    · unfold posLoop at h ⊢
      rw [if_pos hlt] at h ⊢
      cases hc1 : rchoice f idx n2 with
      | error e => rw [hc1] at h; cases h
      | ok v1 =>
        obtain ⟨person, idxA⟩ := v1
        rw [hc1] at h
        dsimp only at h
        dsimp only
        cases hc2 : rchoice f idxA (lookupGroup groups person) with
        | error e => rw [hc2] at h; cases h
        | ok v2 =>
          obtain ⟨image1, idxB⟩ := v2
          rw [hc2] at h
          dsimp only at h
          dsimp only
          cases hc3 : rchoice f idxB
              (if psi then lookupGroup groups person
               else (lookupGroup groups person).filter
                 (fun image => image ≠ image1)) with
          | error e => rw [hc3] at h; cases h
          | ok v3 =>
            obtain ⟨image2, idxC⟩ := v3
            rw [hc3] at h
            dsimp only at h
            dsimp only
            by_cases hck : added.contains
                ((mkImagePair image1 image2).get_key io)
            · rw [if_pos hck] at h ⊢
              exact ih k _ _ _ _ r h hk
            · rw [if_neg hck] at h ⊢
              exact ih k _ _ _ _ r h hk
    · unfold posLoop at h ⊢
      rw [if_neg hlt] at h ⊢
      exact h

theorem negLoop_fuel_mono (f : Nat → Nat) (names : List String)
    (groups : List (String × List ImageFile)) (io : Bool)
    (nb_max : Nat) :
    ∀ fuel fuel2 nb_added pairs added idx r,
    negLoop f names groups io nb_max fuel nb_added pairs added idx =
      .ok r →
    fuel ≤ fuel2 →
    negLoop f names groups io nb_max fuel2 nb_added pairs added idx =
      .ok r := by
  intro fuel
  induction fuel with
  | zero =>
    intro fuel2 nb_added pairs added idx r h hle
    by_cases hlt : nb_added < nb_max
    · unfold negLoop at h
      rw [if_pos hlt] at h
      cases h
    · cases fuel2 with
      | zero => exact h
      | succ k =>
        unfold negLoop at h ⊢
        rw [if_neg hlt] at h ⊢
        exact h
  | succ fuel ih =>
    intro fuel2 nb_added pairs added idx r h hle
    obtain ⟨k, rfl⟩ : ∃ k, fuel2 = k + 1 := ⟨fuel2 - 1, by omega⟩
    have hk : fuel ≤ k := by omega
    by_cases hlt : nb_added < nb_max
    · unfold negLoop at h ⊢
      rw [if_pos hlt] at h ⊢
      cases hc1 : rchoice f idx names with
      | error e => rw [hc1] at h; cases h
      | ok v1 =>
        obtain ⟨person1, idxA⟩ := v1
        rw [hc1] at h
        dsimp only at h
        dsimp only
        cases hc2 : rchoice f idxA
            (names.filter (fun person => person ≠ person1)) with
        | error e => rw [hc2] at h; cases h
        | ok v2 =>
          obtain ⟨person2, idxB⟩ := v2
          rw [hc2] at h
          dsimp only at h
          dsimp only
          cases hc3 : rchoice f idxB (lookupGroup groups person1) with
          | error e => rw [hc3] at h; cases h
          | ok v3 =>
            obtain ⟨image1, idxC⟩ := v3
            rw [hc3] at h
            dsimp only at h
            dsimp only
            cases hc4 : rchoice f idxC (lookupGroup groups person2) with
            | error e => rw [hc4] at h; cases h
            | ok v4 =>
              obtain ⟨image2, idxD⟩ := v4
              rw [hc4] at h
              dsimp only at h
              dsimp only
              by_cases hck : added.contains
                  ((mkImagePair image1 image2).get_key io)
              · rw [if_pos hck] at h ⊢
                exact ih k _ _ _ _ r h hk
              · rw [if_neg hck] at h ⊢
                exact ih k _ _ _ _ r h hk
    · unfold negLoop at h ⊢
      rw [if_neg hlt] at h ⊢
      exact h

theorem get_image_pairs_core_exists (walk : List (String × String))
    (exclude_images : List ImagePair) (psi io : Bool) (nb_max : Nat)
    (hdollar : ∀ img ∈ sampledImages walk exclude_images,
      dollarFree img.filepath = true)
    (hpos : nb_max / 2 ≤ ((pos_candidates walk exclude_images psi).map
      (fun p => p.get_key io)).dedup.length)
    (hneg : nb_max - nb_max / 2 ≤
      ((neg_candidates walk exclude_images).map
        (fun p => p.get_key io)).dedup.length) :
    ∃ f ps idxEnd, get_image_pairs_core walk true nb_max psi io
      exclude_images f 0 nb_max = .ok (ps, idxEnd) := by
  obtain ⟨f1, nb1, pairs1, added1, idx1, hrun1⟩ := posLoop_exists
    (namesGte2Of walk exclude_images) (groupsOf walk exclude_images)
    psi io (nb_max / 2) hpos (nb_max / 2) 0 [] [] 0
    (by omega) List.nodup_nil rfl
  have hspec1 := posLoop_ok_spec f1 _ _ psi io (nb_max / 2) (nb_max / 2)
    0 [] [] 0 nb1 pairs1 added1 idx1 hrun1 (Nat.zero_le _)
  have hq1 : nb1 = nb_max / 2 := hspec1.1
  have hnd1 : added1.Nodup := hspec1.2.2.2.2.1 List.nodup_nil
  have horigin := hspec1.2.2.2.1.2.2
  have hfilnil : added1.filter (fun k =>
      decide (k ∈ (negCandList (namesOf walk exclude_images)
        (groupsOf walk exclude_images)).map
        (fun p => p.get_key io))) = [] := by
    rw [List.filter_eq_nil]
    intro k hk
    simp only [decide_eq_true_eq]
    intro hmemneg
    rcases horigin k hk with h0 | ⟨p, hpd, rfl⟩
    · cases h0
    · obtain ⟨q, hq, hkeyeq⟩ := List.mem_map.mp hmemneg
      exact pos_neg_key_ne walk exclude_images psi io hdollar p q hpd
        ((mem_negCandList _ _ q).mp hq) hkeyeq.symm
  obtain ⟨f2, nb2, pairs2, added2, idx2, hrun2⟩ := negLoop_exists
    (namesOf walk exclude_images) (groupsOf walk exclude_images) io
    nb_max (nb_max - nb_max / 2) nb1 pairs1 added1 idx1
    (by omega) hnd1
    (by
      rw [hfilnil]
      simpa using hneg)
  have hag1 : ∀ i, 0 ≤ i → i < idx1 →
      spliceStreams idx1 f1 f2 i = f1 i := by
    intro i hi1 hi2
    unfold spliceStreams
    rw [if_pos hi2]
  have hag2 : ∀ i, idx1 ≤ i → i < idx2 →
      spliceStreams idx1 f1 f2 i = f2 i := by
    intro i hi1 hi2
    unfold spliceStreams
    rw [if_neg (by omega)]
  have hrun1b := posLoop_frame (namesGte2Of walk exclude_images)
    (groupsOf walk exclude_images) psi io (nb_max / 2) (nb_max / 2)
    f1 (spliceStreams idx1 f1 f2) 0 [] [] 0 nb1 pairs1 added1 idx1
    hrun1 hag1
  have hrun2b := negLoop_frame (namesOf walk exclude_images)
    (groupsOf walk exclude_images) io nb_max (nb_max - nb_max / 2)
    f2 (spliceStreams idx1 f1 f2) nb1 pairs1 added1 idx1 nb2 pairs2
    added2 idx2 hrun2 hag2
  have hrun1c := posLoop_fuel_mono (spliceStreams idx1 f1 f2)
    (namesGte2Of walk exclude_images) (groupsOf walk exclude_images)
    psi io (nb_max / 2) (nb_max / 2) nb_max 0 [] [] 0
    (nb1, pairs1, added1, idx1) hrun1b (Nat.div_le_self _ _)
  have hrun2c := negLoop_fuel_mono (spliceStreams idx1 f1 f2)
    (namesOf walk exclude_images) (groupsOf walk exclude_images) io
    nb_max (nb_max - nb_max / 2) nb_max nb1 pairs1 added1 idx1
    (nb2, pairs2, added2, idx2) hrun2b (by omega)
  refine ⟨spliceStreams idx1 f1 f2,
    (pyShuffle (spliceStreams idx1 f1 f2) pairs2 idx2).1,
    (pyShuffle (spliceStreams idx1 f1 f2) pairs2 idx2).2, ?_⟩
  unfold get_image_pairs_core
  rw [if_neg (by simp)]
  rw [hrun1c]
  dsimp only
  rw [hrun2c]

/-- C1: whenever the candidate pool of a valid dataset admits at least
`nb_max // 2` distinct same-person dedup keys and at least
`nb_max - nb_max // 2` distinct different-person dedup keys under the
given `ignore_order` / `pairs_of_same_imgs` settings (with dollar-free
filepaths, true of LFW names), there exist random streams on which the
call terminates successfully (formalising the almost-sure termination of
the rejection loops); and every successful call, on any stream, returns
exactly `nb_max` pairs of which exactly `nb_max // 2` are same-person
pairs from the positive phase and `nb_max - nb_max // 2` are
different-person pairs. -/
theorem C1_sampler_termination_counts (walk : List (String × String))
    (nb_max : Nat) (psi io : Bool) (exclude_images : List ImagePair)
    (hdollar : ∀ img ∈ sampledImages walk exclude_images,
      dollarFree img.filepath = true)
    (hpos : nb_max / 2 ≤ ((pos_candidates walk exclude_images psi).map
      (fun p => p.get_key io)).dedup.length)
    (hneg : nb_max - nb_max / 2 ≤
      ((neg_candidates walk exclude_images).map
        (fun p => p.get_key io)).dedup.length) :
    (∃ g0 fuel ps gOut,
      get_image_pairs walk true nb_max psi io exclude_images none fuel
        g0 = .ok (ps, gOut)) ∧
    (∀ is_dir seed fuel g0 ps gOut,
      get_image_pairs walk is_dir nb_max psi io exclude_images seed fuel
        g0 = .ok (ps, gOut) →
      ps.length = nb_max ∧
      ps.countP (fun p => p.same_person) = nb_max / 2 ∧
      ps.countP (fun p => !p.same_person) = nb_max - nb_max / 2) := by
  constructor
  · obtain ⟨F, sh, idxE, hcore⟩ := get_image_pairs_core_exists walk
      exclude_images psi io nb_max hdollar hpos hneg
    refine ⟨⟨F, 0⟩, nb_max, sh, ⟨F, idxE⟩, ?_⟩
    unfold get_image_pairs
    dsimp only
    rw [hcore]
  · intro is_dir seed fuel g0 ps gOut h
    obtain ⟨f0, idx0, idxEnd, hcore⟩ := get_image_pairs_ok_core walk
      is_dir nb_max psi io exclude_images seed fuel g0 ps gOut h
    have hspec := get_image_pairs_core_ok_spec walk is_dir nb_max psi io
      exclude_images f0 idx0 fuel ps idxEnd hcore
    exact ⟨hspec.1, hspec.2.1, hspec.2.2.1⟩

/-- Witness for C1 at the fixture dataset with `nb_max = 2`. -/
theorem C1_sampler_witness :
    ((∀ img ∈ sampledImages walkAB [], dollarFree img.filepath = true) ∧
      2 / 2 ≤ ((pos_candidates walkAB [] false).map
        (fun p => p.get_key true)).dedup.length ∧
      2 - 2 / 2 ≤ ((neg_candidates walkAB []).map
        (fun p => p.get_key true)).dedup.length) ∧
    (∃ g0 fuel ps gOut,
      get_image_pairs walkAB true 2 false true [] none fuel g0 =
        .ok (ps, gOut)) := by
  refine ⟨⟨by decide, by decide, by decide⟩, ?_⟩
  exact (C1_sampler_termination_counts walkAB 2 false true []
    (by decide) (by decide) (by decide)).1
